import Mathlib

/-!
Shallow embedding of the raster-scan image-acquisition state machine of
`logic/confocal_JPECPSHR3_logic.py` (class `ConfocalScannerLogic`) and of the
loop-based scanner in
`logic/interfuse/confocal_scanner_JPE_CPSHR3_nicard_interfuse.py`
(class `confocal_scanner_JPE_CPSHR3_nicard_interfuse`).

Python numbers are embedded as follows: `step` and `square_side` are exact
rationals (ℚ), Python ints are ℕ/ℤ, the counter value is ℤ, and the numpy
image buffer is a list of rows of ℤ.  A numpy assignment with an index that is
out of range raises `IndexError`; such a write is embedded as `Option` failure.
The observable world (stage position, counter samples, event trace) is carried
alongside the object attributes so that the observable behaviour of a scan can
be stated.
-/

namespace Qudi

/-- Observable driver events: a relative stage move `move_xyz(dx, dy, dz)` or a
counter acquisition returning `value`. -/
inductive Ev where
  | move (dx dy dz : ℚ)
  | acq (value : ℤ)
  deriving DecidableEq, Repr

/-- Python `int()` applied to an exact rational: truncation toward zero
(`Rat.floor` is the executable floor; `Rat.floor_def'` identifies it with
`Int.floor`). -/
def pyInt (q : ℚ) : ℤ := if 0 ≤ q then q.floor else -(Rat.floor (-q))

/-- numpy `np.round` applied to an exact rational: round half to even. -/
def npRound (q : ℚ) : ℤ :=
  if q - q.floor < 1/2 then q.floor
  else if (1 : ℚ)/2 < q - q.floor then q.floor + 1
  else if q.floor % 2 = 0 then q.floor else q.floor + 1

/-- The buffer `np.zeros((n, n), dtype=int)`, as a list of rows. -/
def zeros (n : ℕ) : List (List ℤ) := List.replicate n (List.replicate n 0)

/-- Entry `(i, j)` of an embedded matrix, `0` outside of its bounds. -/
def getEntry (m : List (List ℤ)) (i j : ℕ) : ℤ := (m.getD i []).getD j 0

/-- Total write of entry `(i, j)`: out-of-range writes are no-ops.  Used on the
specification side and for in-range writes. -/
def setEntryT (m : List (List ℤ)) (i j : ℕ) (v : ℤ) : List (List ℤ) :=
  m.set i ((m.getD i []).set j v)

/-- The numpy assignment `data[i, j] = v` with nonnegative indices: it raises
`IndexError` (here: `none`) when the index is out of range. -/
def setEntry? (m : List (List ℤ)) (i j : ℕ) (v : ℤ) : Option (List (List ℤ)) :=
  if i < m.length ∧ j < (m.getD i []).length then some (setEntryT m i j v)
  else none

/-- A deterministic fake counter/detector driver: the value returned by
`get_counter` is a function of the sample index (number of samples taken since
`start_counter`) and of the current stage position `(x, y)`.  This covers both
the position-encoded fakes of the specification (`count(x, y) = x*1000 + y`)
and sample-indexed fakes. -/
abbrev Counter := ℕ → ℚ → ℚ → ℤ

/-- The mutable attributes of `ConfocalScannerLogic` that the scan methods
touch (`step`, `square_side`, `point`, `line`, `data`, `scan_iteration`),
together with the observable world: the stage position `(x, y, z)` accumulated
from the relative moves, the number of counter samples taken since
`start_counter`, the number of calls to `set_scan_begin_position`
(the centering moves), and the trace of move/acquire events. -/
structure ScanState where
  step : ℚ
  square_side : ℚ
  point : ℕ
  line : ℕ
  data : List (List ℤ)
  scan_iteration : ℕ
  x : ℚ
  y : ℚ
  z : ℚ
  samples : ℕ
  centerings : ℕ
  events : List Ev
  deriving DecidableEq, Repr

/-- `move_scanner_xyz(x, y, z)`: one relative stage move, recorded in the
trace. -/
def move_scanner_xyz (dx dy dz : ℚ) (s : ScanState) : ScanState :=
  { s with x := s.x + dx, y := s.y + dy, z := s.z + dz,
           events := s.events ++ [Ev.move dx dy dz] }

/-- Number of iterations of the `while n < (square_side/2)/step` centering loop
of `set_scan_begin_position`: the loop counter starts at 0 and increases by 1,
so the loop body runs `⌈(square_side/2)/step⌉` times (0 if that is negative). -/
def centeringSteps (step square_side : ℚ) : ℕ :=
  (((square_side / 2) / step).ceil).toNat

/-- `k` repetitions of `move_scanner_xyz(-step, -step, 0)`, the body of the
centering loop of `set_scan_begin_position`. -/
def moveDiag : ℕ → ScanState → ScanState
  | 0, s => s
  | k + 1, s => moveDiag k (move_scanner_xyz (-s.step) (-s.step) 0 s)

/-- `set_scan_begin_position(step, square_side)` (always called with
`self.step`, `self.square_side`): moves by `(-step, -step, 0)` once per
iteration of `while n < (square_side/2)/step`.  The ghost field `centerings`
counts its calls. -/
def set_scan_begin_position (s : ScanState) : ScanState :=
  let s' := moveDiag (centeringSteps s.step s.square_side) s
  { s' with centerings := s'.centerings + 1 }

/-- `acquire_point()`: sample the counter and store the value at
`data[line, point]`. -/
def acquire_point (cnt : Counter) (s : ScanState) : Option ScanState :=
  let v := cnt s.samples s.x s.y
  match setEntry? s.data s.line s.point v with
  | none => none
  | some d => some { s with data := d, samples := s.samples + 1,
                            events := s.events ++ [Ev.acq v] }

/-- `acquire_point_reversed()`: sample the counter and store the value at
`data[line, np.size(data, 0) - point % np.size(data, 0) - 1]`.  A zero-row
buffer makes `point % 0` raise `ZeroDivisionError` (here: `none`). -/
def acquire_point_reversed (cnt : Counter) (s : ScanState) : Option ScanState :=
  let v := cnt s.samples s.x s.y
  let rows := s.data.length
  if rows = 0 then none
  else
    match setEntry? s.data s.line (rows - s.point % rows - 1) v with
    | none => none
    | some d => some { s with data := d, samples := s.samples + 1,
                              events := s.events ++ [Ev.acq v] }

/-- `initialize_scan(step, square_side)` (named `init_scan` here): stores the
parameters, resets `point`, `line` and `scan_iteration` to zero and allocates
`data = np.zeros((int(np.round(square_side/step)), ...))`.  Its call to
`start_counter` restarts the fake counter's acquisition session, which resets
the sample index; the stage position is not touched. -/
def init_scan (step square_side : ℚ) (s : ScanState) : ScanState :=
  { s with step := step, square_side := square_side, point := 0, line := 0,
           data := zeros (npRound (square_side / step)).toNat,
           scan_iteration := 0, samples := 0 }

/-- A fresh object at the region centre: all attributes zero, then
`init_scan`. -/
def initState (step square_side : ℚ) : ScanState :=
  init_scan step square_side
    { step := 0, square_side := 0, point := 0, line := 0, data := [],
      scan_iteration := 0, x := 0, y := 0, z := 0, samples := 0,
      centerings := 0, events := [] }

/-- One invocation of `snake_scan()`.  The returned flag records whether
`signal_continue_snake_scan` was emitted (it is not in the terminal branch);
`none` is a raised exception (out-of-range numpy write). -/
def snake_scan (cnt : Counter) (s : ScanState) : Option (ScanState × Bool) :=
  if s.scan_iteration = 0 then
    let s1 := set_scan_begin_position s
    match acquire_point cnt s1 with
    | none => none
    | some s2 => some ({ s2 with point := s2.point + 1,
                                 scan_iteration := s2.scan_iteration + 1 }, true)
  else if (s.scan_iteration : ℚ) = (s.square_side / s.step) ^ 2 then
    let s1 := set_scan_begin_position s
    some ({ s1 with scan_iteration := s1.scan_iteration + 1 }, false)
  else
    let s1 :=
      if (s.point : ℤ) = pyInt (s.square_side / s.step) then
        let sA := move_scanner_xyz 0 s.step 0 s
        let sB := { sA with line := sA.line + 1, point := 0 }
        if sB.line % 2 = 0 then acquire_point cnt sB
        else acquire_point_reversed cnt sB
      else
        if s.line % 2 = 0 then acquire_point cnt (move_scanner_xyz s.step 0 0 s)
        else acquire_point_reversed cnt (move_scanner_xyz (-s.step) 0 0 s)
    match s1 with
    | none => none
    | some s2 => some ({ s2 with point := s2.point + 1,
                                 scan_iteration := s2.scan_iteration + 1 }, true)

/-- One invocation of `horizontal_scan()`.  The flag records whether
`signal_continue_horizontal_scan` was emitted. -/
def horizontal_scan (cnt : Counter) (s : ScanState) : Option (ScanState × Bool) :=
  if s.scan_iteration = 0 then
    let s1 := set_scan_begin_position s
    match acquire_point cnt s1 with
    | none => none
    | some s2 => some ({ s2 with point := s2.point + 1,
                                 scan_iteration := s2.scan_iteration + 1 }, true)
  else if (s.scan_iteration : ℚ) = (s.square_side / s.step) ^ 2 - 1 then
    let s1 := set_scan_begin_position s
    some ({ s1 with scan_iteration := s1.scan_iteration + 1 }, false)
  else
    let s1 :=
      if (s.point : ℤ) = pyInt (s.square_side / s.step) - 1 then
        let sA := move_scanner_xyz 0 s.step 0 s
        let sB := move_scanner_xyz (-(pyInt (sA.square_side / sA.step) : ℚ)) 0 0 sA
        { sB with point := 0, line := sB.line + 1 }
      else
        let sA := move_scanner_xyz s.step 0 0 s
        { sA with point := sA.point + 1 }
    match acquire_point cnt s1 with
    | none => none
    | some s2 => some ({ s2 with scan_iteration := s2.scan_iteration + 1 }, true)

/-- `k` invocations of a scan method, regardless of whether the continue signal
was emitted. -/
def stepRun (f : ScanState → Option (ScanState × Bool)) :
    ℕ → ScanState → Option ScanState
  | 0, s => some s
  | k + 1, s =>
    match f s with
    | none => none
    | some (s', _) => stepRun f k s'

/-- Driving a scan to completion through the queued continue signal: invoke the
scan method, re-invoke while it emits its continue signal, stop at the terminal
invocation.  `none` if the fuel runs out or an invocation raises. -/
def driveLoop (f : ScanState → Option (ScanState × Bool)) :
    ℕ → ScanState → Option ScanState
  | 0, _ => none
  | fuel + 1, s =>
    match f s with
    | none => none
    | some (s', true) => driveLoop f fuel s'
    | some (s', false) => some s'

/-- A full snake scan driven by `signal_continue_snake_scan`. -/
def driveSnake (cnt : Counter) (fuel : ℕ) (s : ScanState) : Option ScanState :=
  driveLoop (snake_scan cnt) fuel s

/-- A full horizontal scan driven by `signal_continue_horizontal_scan`. -/
def driveHorizontal (cnt : Counter) (fuel : ℕ) (s : ScanState) :
    Option ScanState :=
  driveLoop (horizontal_scan cnt) fuel s

namespace Interfuse

/-- `create_map(step, square_side)` of the nicard interfuse. -/
def create_map (step square_side : ℚ) : List (List ℤ) :=
  zeros (npRound (square_side / step)).toNat

/-- Inner `while n < side_points_number` loop of an even interfuse line `m`:
move `(step, 0, 0)`, sample, write `data[m, j]`, with `j` ascending; `k` is the
number of remaining iterations.  All writes stay inside the
`side_points_number`-sized buffer, so the total write is used. -/
def fwdLine (cnt : Counter) (m : ℕ) : ℕ → ℕ → ScanState → ScanState
  | _, 0, s => s
  | j, k + 1, s =>
    let sA := move_scanner_xyz s.step 0 0 s
    let v := cnt sA.samples sA.x sA.y
    fwdLine cnt m (j + 1) k
      { sA with data := setEntryT sA.data m j v, samples := sA.samples + 1,
                events := sA.events ++ [Ev.acq v] }

/-- Inner `while n >= 0` loop of an odd interfuse line `m`: move
`(-step, 0, 0)`, sample, write `data[m, j]`, with `j` descending from
`side_points_number - 1`. -/
def revLine (cnt : Counter) (m : ℕ) : ℕ → ℕ → ScanState → ScanState
  | _, 0, s => s
  | j, k + 1, s =>
    let sA := move_scanner_xyz (-s.step) 0 0 s
    let v := cnt sA.samples sA.x sA.y
    revLine cnt m (j - 1) k
      { sA with data := setEntryT sA.data m j v, samples := sA.samples + 1,
                events := sA.events ++ [Ev.acq v] }

/-- Outer `while m < side_points_number` loop: one full line (forward for even
`m`, backward for odd `m`) followed by the move `(0, step, 0)`. -/
def lines (cnt : Counter) (spn : ℕ) : ℕ → ℕ → ScanState → ScanState
  | _, 0, s => s
  | m, k + 1, s =>
    let s1 := if m % 2 = 0 then fwdLine cnt m 0 spn s
              else revLine cnt m (spn - 1) spn s
    lines cnt spn (m + 1) k (move_scanner_xyz 0 s1.step 0 s1)

/-- `snake_scan(step, square_side)` of the nicard interfuse: `start_counter`
(which resets the fake counter's sample index), a fresh `create_map` buffer,
then the snake loop over `side_points_number = int(np.round(square_side/step))`
lines.  The commented-out centering calls of the source are absent. -/
def snake_scan (cnt : Counter) (step square_side : ℚ) (s : ScanState) :
    ScanState :=
  let spn := (npRound (square_side / step)).toNat
  lines cnt spn 0 spn
    { s with step := step, square_side := square_side, samples := 0,
             data := create_map step square_side }

end Interfuse

/-! Specification-side description of the snake acquisition order. -/

/-- Row written by the `j`-th snake acquisition (0-indexed). -/
def snakeRow (n j : ℕ) : ℕ := j / n

/-- Column written by the `j`-th snake acquisition: `j % n` on even lines,
mirrored on odd lines. -/
def snakeCol (n j : ℕ) : ℕ :=
  if (j / n) % 2 = 0 then j % n else n - 1 - j % n

/-- Acquisition index at which cell `(i, j)` of an `n × n` snake scan is
written. -/
def snakeIdx (n i j : ℕ) : ℕ :=
  n * i + (if i % 2 = 0 then j else n - 1 - j)

/-- Value sampled by the `j`-th snake acquisition of a scan that started at
stage position `(x0, y0)`: sample index `j`, taken at the spatial position of
column `snakeCol n j` on line `j / n` of the centred grid. -/
def snakeVal (cnt : Counter) (n : ℕ) (st x0 y0 : ℚ) (j : ℕ) : ℤ :=
  cnt j (x0 - (centeringSteps st ((n : ℚ) * st) : ℚ) * st + (snakeCol n j : ℚ) * st)
        (y0 - (centeringSteps st ((n : ℚ) * st) : ℚ) * st + ((j / n : ℕ) : ℚ) * st)

/-- The image buffer after the first `k` acquisitions of a snake scan. -/
def snakeDataK (cnt : Counter) (n : ℕ) (st x0 y0 : ℚ) : ℕ → List (List ℤ)
  | 0 => zeros n
  | k + 1 =>
    setEntryT (snakeDataK cnt n st x0 y0 k) (snakeRow n k) (snakeCol n k)
      (snakeVal cnt n st x0 y0 k)

/-- An `n × n` matrix. -/
def Dims (n : ℕ) (m : List (List ℤ)) : Prop :=
  m.length = n ∧ ∀ r ∈ m, r.length = n

/-! Basic lemmas about the matrix embedding. -/

theorem dims_zeros (n : ℕ) : Dims n (zeros n) := by
  constructor
  · simp [zeros]
  · intro r hr
    simp only [zeros] at hr
    simp [List.eq_of_mem_replicate hr]

theorem length_setEntryT (m : List (List ℤ)) (i j : ℕ) (v : ℤ) :
    (setEntryT m i j v).length = m.length := by
  simp [setEntryT]

theorem dims_setEntryT {n : ℕ} {m : List (List ℤ)} (h : Dims n m) (i j : ℕ)
    (v : ℤ) : Dims n (setEntryT m i j v) := by
  obtain ⟨h1, h2⟩ := h
  refine ⟨by simp [setEntryT, h1], ?_⟩
  intro r hr
  rcases Nat.lt_or_ge i m.length with hi | hi
  · rcases List.mem_or_eq_of_mem_set hr with hr' | hr'
    · exact h2 r hr'
    · subst hr'
      have hget : m.getD i [] = m[i] := by
        simp [List.getD_eq_getElem?_getD, List.getElem?_eq_getElem hi]
      rw [hget]
      simp [h2 _ (List.getElem_mem hi)]
  · rw [setEntryT, List.set_eq_of_length_le hi] at hr
    exact h2 r hr

theorem getEntry_zeros (n i j : ℕ) : getEntry (zeros n) i j = 0 := by
  by_cases hi : i < n
  · by_cases hj : j < n
    · simp [getEntry, zeros, List.getD_eq_getElem?_getD, List.getElem?_replicate, hi, hj]
    · simp [getEntry, zeros, List.getD_eq_getElem?_getD, List.getElem?_replicate, hi, hj]
  · simp [getEntry, zeros, List.getD_eq_getElem?_getD, List.getElem?_replicate, hi]


theorem getD_row_eq {n : ℕ} {m : List (List ℤ)} (h : Dims n m) {i : ℕ}
    (hi : i < n) : (m.getD i []).length = n := by
  have hi' : i < m.length := h.1 ▸ hi
  have hrow : m.getD i [] = m[i] := by
    simp [List.getD_eq_getElem?_getD, List.getElem?_eq_getElem hi']
  rw [hrow]
  exact h.2 _ (List.getElem_mem hi')

theorem getEntry_setEntryT_self {m : List (List ℤ)} {i j : ℕ} (v : ℤ)
    (hi : i < m.length) (hj : j < (m.getD i []).length) :
    getEntry (setEntryT m i j v) i j = v := by
  simp only [List.getD_eq_getElem?_getD] at hj
  simp only [getEntry, setEntryT, List.getD_eq_getElem?_getD]
  rw [List.getElem?_set_self hi]
  simp only [Option.getD_some]
  rw [List.getElem?_set_self hj]
  simp

theorem getEntry_setEntryT_ne {m : List (List ℤ)} {i j i' j' : ℕ} (v : ℤ)
    (h : i' ≠ i ∨ j' ≠ j) :
    getEntry (setEntryT m i j v) i' j' = getEntry m i' j' := by
  simp only [getEntry, setEntryT, List.getD_eq_getElem?_getD]
  by_cases hii : i' = i
  · subst hii
    have hjj : j' ≠ j := h.resolve_left (by simp)
    rcases Nat.lt_or_ge i' m.length with hi | hi
    · rw [List.getElem?_set_self hi]
      simp only [Option.getD_some]
      rw [List.getElem?_set_ne (Ne.symm hjj)]
    · rw [List.set_eq_of_length_le hi]
  · rw [List.getElem?_set_ne (fun he => hii he.symm)]

theorem getEntry_eq_getElem {m : List (List ℤ)} {i j : ℕ} (hi : i < m.length)
    (hj : j < m[i].length) : m[i][j] = getEntry m i j := by
  have hrow : m.getD i [] = m[i] := by
    simp [List.getD_eq_getElem?_getD, List.getElem?_eq_getElem hi]
  rw [getEntry, hrow, List.getD_eq_getElem?_getD, List.getElem?_eq_getElem hj]
  simp

theorem mat_ext {n : ℕ} {A B : List (List ℤ)} (hA : Dims n A) (hB : Dims n B)
    (h : ∀ i j, i < n → j < n → getEntry A i j = getEntry B i j) : A = B := by
  apply List.ext_getElem (by rw [hA.1, hB.1])
  intro i h1 h2
  apply List.ext_getElem
    (by rw [hA.2 _ (List.getElem_mem h1), hB.2 _ (List.getElem_mem h2)])
  intro j hj1 hj2
  have hi : i < n := hA.1 ▸ h1
  have hj : j < n := (hA.2 _ (List.getElem_mem h1)) ▸ hj1
  rw [getEntry_eq_getElem h1 hj1, getEntry_eq_getElem h2 hj2]
  exact h i j hi hj

/-! Arithmetic helpers. -/

theorem ratFloor_eq_intFloor (q : ℚ) : q.floor = ⌊q⌋ := by
  rw [Rat.floor_def', Rat.floor_def]

theorem neg_ediv_of_not_dvd {a b : ℤ} (hb : 0 < b) (h : ¬ b ∣ a) :
    (-a) / b = -(a / b) - 1 := by
  have hmod0 : a % b ≠ 0 := fun hc => h (Int.dvd_of_emod_eq_zero hc)
  have hmodnn : 0 ≤ a % b := Int.emod_nonneg a (by omega)
  have hmodlt : a % b < b := Int.emod_lt_of_pos a hb
  have hdm := Int.ediv_add_emod a b
  have he : -a = (b - a % b) + (-(a / b) - 1) * b := by ring_nf; omega
  rw [he, Int.add_mul_ediv_right _ _ (by omega : b ≠ 0),
    Int.ediv_eq_zero_of_lt (by omega) (by omega)]
  omega

theorem ratCeil_eq_intCeil (q : ℚ) : q.ceil = ⌈q⌉ := by
  rw [Rat.ceil]
  split
  · next h =>
    have hq : q = (q.num : ℚ) := by
      conv_lhs => rw [← Rat.num_div_den q]
      rw [h]
      simp
    conv_rhs => rw [hq]
    rw [Int.ceil_intCast]
  · next h =>
    have hden : 0 < (q.den : ℤ) := by
      have := q.den_nz
      omega
    have hnd : ¬ ((q.den : ℤ) ∣ q.num) := by
      intro hdvd
      apply h
      have h1 : q.den ∣ q.num.natAbs := by
        have h0 := Int.natAbs_dvd_natAbs.mpr hdvd
        simpa using h0
      exact Nat.Coprime.eq_one_of_dvd q.reduced.symm h1
    rw [show ⌈q⌉ = -⌊-q⌋ by rw [Int.floor_neg]; ring]
    rw [Rat.floor_def]
    have hnum : (-q).num = -q.num := Rat.neg_num q
    have hd : (-q).den = q.den := Rat.neg_den q
    rw [hnum, hd, neg_ediv_of_not_dvd hden hnd]
    omega

theorem npRound_natCast (n : ℕ) : npRound (n : ℚ) = n := by
  unfold npRound
  norm_num [ratFloor_eq_intFloor, Int.floor_natCast]

theorem pyInt_natCast (n : ℕ) : pyInt (n : ℚ) = n := by
  unfold pyInt
  rw [if_pos (by positivity), ratFloor_eq_intFloor]
  simp

theorem ratio_cancel {st : ℚ} (h : st ≠ 0) (n : ℕ) :
    ((n : ℚ) * st) / st = (n : ℚ) :=
  mul_div_cancel_right₀ _ h

theorem cast_eq_sq_iff (m n : ℕ) : ((m : ℕ) : ℚ) = (n : ℚ) ^ 2 ↔ m = n ^ 2 := by
  rw [show ((n : ℚ)) ^ 2 = ((n ^ 2 : ℕ) : ℚ) by push_cast; ring]
  exact Nat.cast_inj

theorem snakeRow_mul_add {n q t : ℕ} (hn : 0 < n) (ht : t < n) :
    snakeRow n (n * q + t) = q := by
  unfold snakeRow
  rw [Nat.mul_add_div hn, Nat.div_eq_of_lt ht, Nat.add_zero]

theorem mod_mul_add {n q t : ℕ} (ht : t < n) : (n * q + t) % n = t := by
  rw [Nat.mul_add_mod, Nat.mod_eq_of_lt ht]

theorem snakeCol_mul_add {n q t : ℕ} (hn : 0 < n) (ht : t < n) :
    snakeCol n (n * q + t) = if q % 2 = 0 then t else n - 1 - t := by
  unfold snakeCol
  rw [Nat.mul_add_div hn, Nat.div_eq_of_lt ht, Nat.add_zero, mod_mul_add ht]

/-! Specifications of the embedded primitive operations. -/

@[simp] theorem move_xyz_step (dx dy dz : ℚ) (s : ScanState) :
    (move_scanner_xyz dx dy dz s).step = s.step := rfl

@[simp] theorem move_xyz_side (dx dy dz : ℚ) (s : ScanState) :
    (move_scanner_xyz dx dy dz s).square_side = s.square_side := rfl

@[simp] theorem move_xyz_point (dx dy dz : ℚ) (s : ScanState) :
    (move_scanner_xyz dx dy dz s).point = s.point := rfl

@[simp] theorem move_xyz_line (dx dy dz : ℚ) (s : ScanState) :
    (move_scanner_xyz dx dy dz s).line = s.line := rfl

@[simp] theorem move_xyz_data (dx dy dz : ℚ) (s : ScanState) :
    (move_scanner_xyz dx dy dz s).data = s.data := rfl

@[simp] theorem move_xyz_iter (dx dy dz : ℚ) (s : ScanState) :
    (move_scanner_xyz dx dy dz s).scan_iteration = s.scan_iteration := rfl

@[simp] theorem move_xyz_x (dx dy dz : ℚ) (s : ScanState) :
    (move_scanner_xyz dx dy dz s).x = s.x + dx := rfl

@[simp] theorem move_xyz_y (dx dy dz : ℚ) (s : ScanState) :
    (move_scanner_xyz dx dy dz s).y = s.y + dy := rfl

@[simp] theorem move_xyz_samples (dx dy dz : ℚ) (s : ScanState) :
    (move_scanner_xyz dx dy dz s).samples = s.samples := rfl

@[simp] theorem move_xyz_centerings (dx dy dz : ℚ) (s : ScanState) :
    (move_scanner_xyz dx dy dz s).centerings = s.centerings := rfl

@[simp] theorem move_xyz_events (dx dy dz : ℚ) (s : ScanState) :
    (move_scanner_xyz dx dy dz s).events = s.events ++ [Ev.move dx dy dz] := rfl

theorem moveDiag_fields (k : ℕ) (s : ScanState) :
    (moveDiag k s).step = s.step ∧ (moveDiag k s).square_side = s.square_side ∧
    (moveDiag k s).point = s.point ∧ (moveDiag k s).line = s.line ∧
    (moveDiag k s).data = s.data ∧
    (moveDiag k s).scan_iteration = s.scan_iteration ∧
    (moveDiag k s).x = s.x - (k : ℚ) * s.step ∧
    (moveDiag k s).y = s.y - (k : ℚ) * s.step ∧
    (moveDiag k s).samples = s.samples ∧
    (moveDiag k s).centerings = s.centerings := by
  induction k generalizing s with
  | zero => simp [moveDiag]
  | succ k ih =>
    obtain ⟨h1, h2, h3, h4, h5, h6, h7, h8, h9, h10⟩ :=
      ih (move_scanner_xyz (-s.step) (-s.step) 0 s)
    simp only [moveDiag]
    simp only [move_xyz_step, move_xyz_side, move_xyz_point, move_xyz_line,
      move_xyz_data, move_xyz_iter, move_xyz_x, move_xyz_y, move_xyz_samples,
      move_xyz_centerings] at h1 h2 h3 h4 h5 h6 h7 h8 h9 h10
    refine ⟨h1, h2, h3, h4, h5, h6, ?_, ?_, h9, h10⟩
    · rw [h7]
      push_cast
      ring
    · rw [h8]
      push_cast
      ring

theorem sbp_fields (s : ScanState) :
    (set_scan_begin_position s).step = s.step ∧
    (set_scan_begin_position s).square_side = s.square_side ∧
    (set_scan_begin_position s).point = s.point ∧
    (set_scan_begin_position s).line = s.line ∧
    (set_scan_begin_position s).data = s.data ∧
    (set_scan_begin_position s).scan_iteration = s.scan_iteration ∧
    (set_scan_begin_position s).x
      = s.x - (centeringSteps s.step s.square_side : ℚ) * s.step ∧
    (set_scan_begin_position s).y
      = s.y - (centeringSteps s.step s.square_side : ℚ) * s.step ∧
    (set_scan_begin_position s).samples = s.samples ∧
    (set_scan_begin_position s).centerings = s.centerings + 1 := by
  have h := moveDiag_fields (centeringSteps s.step s.square_side) s
  obtain ⟨h1, h2, h3, h4, h5, h6, h7, h8, h9, h10⟩ := h
  exact ⟨h1, h2, h3, h4, h5, h6, h7, h8, h9, by simp [set_scan_begin_position, h10]⟩

theorem setEntry?_in_range {n : ℕ} {m : List (List ℤ)} (h : Dims n m)
    {i j : ℕ} (hi : i < n) (hj : j < n) (v : ℤ) :
    setEntry? m i j v = some (setEntryT m i j v) := by
  rw [setEntry?, if_pos]
  exact ⟨h.1 ▸ hi, by rw [getD_row_eq h hi]; exact hj⟩

theorem acquire_point_eq {cnt : Counter} {n : ℕ} {s : ScanState}
    (h : Dims n s.data) (hi : s.line < n) (hj : s.point < n) :
    acquire_point cnt s = some
      { s with data := setEntryT s.data s.line s.point (cnt s.samples s.x s.y),
               samples := s.samples + 1,
               events := s.events ++ [Ev.acq (cnt s.samples s.x s.y)] } := by
  rw [acquire_point, setEntry?_in_range h hi hj]

theorem acquire_point_reversed_eq {cnt : Counter} {n : ℕ} {s : ScanState}
    (h : Dims n s.data) (hn : 0 < n) (hi : s.line < n) :
    acquire_point_reversed cnt s = some
      { s with data := setEntryT s.data s.line (n - 1 - s.point % n)
                 (cnt s.samples s.x s.y),
               samples := s.samples + 1,
               events := s.events ++ [Ev.acq (cnt s.samples s.x s.y)] } := by
  have hlen : s.data.length = n := h.1
  have hcol : n - s.point % n - 1 = n - 1 - s.point % n := by
    rw [Nat.sub_sub, Nat.sub_sub, Nat.add_comm]
  have hcol_lt : n - 1 - s.point % n < n :=
    Nat.lt_of_le_of_lt (Nat.sub_le _ _) (Nat.sub_lt hn Nat.one_pos)
  rw [acquire_point_reversed, hlen, if_neg (Nat.pos_iff_ne_zero.mp hn), hcol,
    setEntry?_in_range h hi hcol_lt]


/-! The trampoline snake scan: state invariant and its preservation. -/

/-- State invariant of the trampoline `snake_scan` over a region with
`square_side = n * step`, for a run that started at stage position `(x0, y0)`
with `c0` prior centering calls: the state after `n*q + t` invocations
(line `q`, whose `t`-th acquisition just happened, `1 ≤ t ≤ n`). -/
structure SnakeInv (cnt : Counter) (n : ℕ) (st x0 y0 : ℚ) (c0 : ℕ) (q t : ℕ)
    (s : ScanState) : Prop where
  hstep : s.step = st
  hside : s.square_side = (n : ℚ) * st
  hiter : s.scan_iteration = n * q + t
  hsamp : s.samples = n * q + t
  hpoint : s.point = t
  hline : s.line = q
  hdata : s.data = snakeDataK cnt n st x0 y0 (n * q + t)
  hx : s.x = x0 - (centeringSteps st ((n : ℚ) * st) : ℚ) * st
      + (if q % 2 = 0 then ((t - 1 : ℕ) : ℚ) else ((n - t : ℕ) : ℚ)) * st
  hy : s.y = y0 - (centeringSteps st ((n : ℚ) * st) : ℚ) * st + (q : ℚ) * st
  hcent : s.centerings = c0 + 1

theorem snake_scan_base {cnt : Counter} {n : ℕ} {st : ℚ} (hn : 0 < n)
    (s : ScanState) (h1 : s.step = st) (h2 : s.square_side = (n : ℚ) * st)
    (h3 : s.scan_iteration = 0) (h4 : s.point = 0) (h5 : s.line = 0)
    (h6 : s.samples = 0) (h7 : s.data = zeros n) :
    ∃ s', snake_scan cnt s = some (s', true) ∧
      SnakeInv cnt n st s.x s.y s.centerings 0 1 s' := by
  rw [snake_scan, if_pos h3]
  obtain ⟨g1, g2, g3, g4, g5, g6, g7, g8, g9, g10⟩ :=
    sbp_fields s
  set s1 := set_scan_begin_position s with hs1
  have hd : Dims n s1.data := by rw [g5, h7]; exact dims_zeros n
  have hline : s1.line < n := by rw [g4, h5]; exact hn
  have hpoint : s1.point < n := by rw [g3, h4]; exact hn
  simp only [acquire_point_eq hd hline hpoint]
  refine ⟨_, rfl, ?_⟩
  constructor
  · simpa using g1.trans h1
  · simpa using g2.trans h2
  · simpa using by rw [g6, h3]
  · simpa using by rw [g9, h6]
  · simpa using by rw [g3, h4]
  · simpa using by rw [g4, h5]
  · simp only [g3, g4, g5, g9, g7, g8, h1, h2, h4, h5, h6, h7]
    rw [show n * 0 + 1 = 0 + 1 by ring]
    simp only [snakeDataK, snakeRow, snakeCol, snakeVal]
    norm_num
  · simp only [g7, h1, h2]
    norm_num
  · simp only [g8, h1, h2]
    norm_num
  · simpa using g10


theorem dims_snakeDataK (cnt : Counter) (n : ℕ) (st x0 y0 : ℚ) (k : ℕ) :
    Dims n (snakeDataK cnt n st x0 y0 k) := by
  induction k with
  | zero => exact dims_zeros n
  | succ k ih => exact dims_setEntryT ih _ _ _

theorem snake_lt_sq {n q t : ℕ} (hq : q < n) (ht : t < n) :
    n * q + t < n ^ 2 := by
  have h2 : n * (q + 1) ≤ n * n := Nat.mul_le_mul_left n (by omega)
  calc n * q + t < n * (q + 1) := by rw [Nat.mul_add]; omega
    _ ≤ n * n := h2
    _ = n ^ 2 := by ring

theorem snake_scan_stepA {cnt : Counter} {n : ℕ} {st x0 y0 : ℚ} {c0 q t : ℕ}
    (hst : st ≠ 0) (hq : q < n) (ht1 : 1 ≤ t) (ht : t < n)
    {s : ScanState} (inv : SnakeInv cnt n st x0 y0 c0 q t s) :
    ∃ s', snake_scan cnt s = some (s', true) ∧
      SnakeInv cnt n st x0 y0 c0 q (t + 1) s' := by
  obtain ⟨h1, h2, h3, h4, h5, h6, h7, h8, h9, h10⟩ := inv
  have hn : 0 < n := Nat.lt_of_le_of_lt (Nat.zero_le t) ht
  have cond0 : ¬ s.scan_iteration = 0 := by rw [h3]; omega
  have cond1 : ¬ ((s.scan_iteration : ℚ) = (s.square_side / s.step) ^ 2) := by
    rw [h3, h2, h1, ratio_cancel hst, cast_eq_sq_iff]
    exact Nat.ne_of_lt (snake_lt_sq hq ht)
  have cond2 : ¬ ((s.point : ℤ) = pyInt (s.square_side / s.step)) := by
    rw [h5, h2, h1, ratio_cancel hst, pyInt_natCast]
    exact_mod_cast Nat.ne_of_lt ht
  rw [snake_scan, if_neg cond0, if_neg cond1]
  simp only [if_neg cond2]
  have hrow : snakeRow n (n * q + t) = q := snakeRow_mul_add hn ht
  have hcol := snakeCol_mul_add (q := q) hn ht
  by_cases hpar : q % 2 = 0
  · -- even line: move (+step, 0, 0) then acquire_point
    have hpar' : s.line % 2 = 0 := by rw [h6]; exact hpar
    set sA := move_scanner_xyz s.step 0 0 s with hsA
    have hdA : Dims n sA.data := by
      rw [hsA, move_xyz_data, h7]; exact dims_snakeDataK cnt n st x0 y0 _
    have hiA : sA.line < n := by rw [hsA, move_xyz_line, h6]; exact hq
    have hjA : sA.point < n := by rw [hsA, move_xyz_point, h5]; exact ht
    simp only [if_pos hpar', acquire_point_eq hdA hiA hjA]
    refine ⟨_, rfl, ?_⟩
    constructor
    · simp [hsA, h1]
    · simp [hsA, h2]
    · simp [hsA, h3]; ring
    · simp [hsA, h4]; ring
    · simp [hsA, h5]
    · simp [hsA, h6]
    · simp only [hsA, move_xyz_data, move_xyz_line, move_xyz_point,
        move_xyz_samples, move_xyz_x, move_xyz_y]
      rw [h7, h5, h6, h4, h8, h9]
      rw [show n * q + (t + 1) = (n * q + t) + 1 by ring]
      simp only [snakeDataK, hrow, hcol, if_pos hpar, snakeVal,
        Nat.mul_add_div hn, Nat.div_eq_of_lt ht, Nat.add_zero]
      congr 2
      · rw [h1]
        push_cast [Nat.cast_sub ht1]
        ring
      · ring
    · simp only [hsA, move_xyz_x]
      rw [h8, h1]
      simp only [if_pos hpar]
      push_cast [Nat.cast_sub ht1]
      ring
    · simp only [hsA, move_xyz_y]
      rw [h9]
      ring
    · simp [hsA, h10]
  · -- odd line: move (-step, 0, 0) then acquire_point_reversed
    have hpar' : ¬ s.line % 2 = 0 := by rw [h6]; exact hpar
    set sA := move_scanner_xyz (-s.step) 0 0 s with hsA
    have hdA : Dims n sA.data := by
      rw [hsA, move_xyz_data, h7]; exact dims_snakeDataK cnt n st x0 y0 _
    have hiA : sA.line < n := by rw [hsA, move_xyz_line, h6]; exact hq
    simp only [if_neg hpar', acquire_point_reversed_eq hdA hn hiA]
    refine ⟨_, rfl, ?_⟩
    have hmod : s.point % n = t := by
      rw [h5]; exact Nat.mod_eq_of_lt ht
    constructor
    · simp [hsA, h1]
    · simp [hsA, h2]
    · simp [hsA, h3]; ring
    · simp [hsA, h4]; ring
    · simp [hsA, h5]
    · simp [hsA, h6]
    · simp only [hsA, move_xyz_data, move_xyz_line, move_xyz_point,
        move_xyz_samples, move_xyz_x, move_xyz_y]
      rw [hmod, h7, h6, h4, h8, h9, h1]
      rw [show n * q + (t + 1) = (n * q + t) + 1 by ring]
      simp only [snakeDataK, hrow, hcol, if_neg hpar, snakeVal,
        Nat.mul_add_div hn, Nat.div_eq_of_lt ht, Nat.add_zero]
      congr 2
      · push_cast [Nat.cast_sub (le_of_lt ht),
          Nat.cast_sub (Nat.le_sub_one_of_lt ht), Nat.cast_sub hn]
        ring
      · ring
    · simp only [hsA, move_xyz_x]
      rw [h8, h1]
      simp only [if_neg hpar]
      push_cast [Nat.cast_sub (le_of_lt ht), Nat.cast_sub (show t + 1 ≤ n from ht)]
      ring
    · simp only [hsA, move_xyz_y]
      rw [h9]
      ring
    · simp [hsA, h10]


theorem snake_scan_stepB {cnt : Counter} {n : ℕ} {st x0 y0 : ℚ} {c0 q : ℕ}
    (hst : st ≠ 0) (hq1 : q + 1 < n)
    {s : ScanState} (inv : SnakeInv cnt n st x0 y0 c0 q n s) :
    ∃ s', snake_scan cnt s = some (s', true) ∧
      SnakeInv cnt n st x0 y0 c0 (q + 1) 1 s' := by
  obtain ⟨h1, h2, h3, h4, h5, h6, h7, h8, h9, h10⟩ := inv
  have hn : 0 < n := by omega
  have hd : Dims n s.data := by
    rw [h7]; exact dims_snakeDataK cnt n st x0 y0 _
  have cond0 : ¬ s.scan_iteration = 0 := by rw [h3]; omega
  have cond1 : ¬ ((s.scan_iteration : ℚ) = (s.square_side / s.step) ^ 2) := by
    rw [h3, h2, h1, ratio_cancel hst, cast_eq_sq_iff]
    have h := snake_lt_sq (n := n) (q := q + 1) (t := 0) hq1 hn
    have e : n * (q + 1) + 0 = n * q + n := by ring
    omega
  have cond2 : (s.point : ℤ) = pyInt (s.square_side / s.step) := by
    rw [h5, h2, h1, ratio_cancel hst, pyInt_natCast]
  rw [snake_scan, if_neg cond0, if_neg cond1]
  simp only [if_pos cond2, move_xyz_line, move_xyz_point, move_xyz_data,
    move_xyz_samples, move_xyz_x, move_xyz_y, move_xyz_step, move_xyz_side,
    move_xyz_iter, move_xyz_centerings, move_xyz_events, h6]
  have hrow2 : snakeRow n (n * q + n) = q + 1 := by
    rw [show n * q + n = n * (q + 1) + 0 by ring]
    exact snakeRow_mul_add hn hn
  have hcol2 : snakeCol n (n * q + n) = if (q + 1) % 2 = 0 then 0 else n - 1 := by
    rw [show n * q + n = n * (q + 1) + 0 by ring, snakeCol_mul_add hn hn]
    simp
  have hdiv2 : (n * q + n) / n = q + 1 := by
    rw [show n * q + n = n * (q + 1) + 0 by ring, Nat.mul_add_div hn]
    simp
  by_cases hpar : (q + 1) % 2 = 0
  · -- the new line q+1 is even: acquire_point at column 0
    have hqodd : ¬ q % 2 = 0 := by omega
    rw [if_pos hpar]
    simp only [acquire_point, setEntry?]
    have hcond : q + 1 < s.data.length ∧ 0 < (s.data.getD (q + 1) []).length := by
      refine ⟨by rw [hd.1]; exact hq1, ?_⟩
      rw [getD_row_eq hd hq1]
      exact hn
    rw [if_pos hcond]
    refine ⟨_, rfl, ?_⟩
    constructor
    · simp [h1]
    · simp [h2]
    · simp [h3]; ring
    · simp [h4]; ring
    · simp
    · simp
    · simp only []
      rw [h7, h4, h8, h9, h1]
      rw [show n * (q + 1) + 1 = (n * q + n) + 1 by ring]
      simp only [snakeDataK, hrow2, hcol2, if_pos hpar, snakeVal, hdiv2]
      congr 2
      · rw [if_neg hqodd]
        push_cast [Nat.sub_self]
        ring
      · push_cast
        ring
    · simp only []
      rw [h8]
      simp only [if_neg hqodd, if_pos hpar]
      push_cast [Nat.sub_self]
      ring
    · simp only []
      rw [h9, h1]
      push_cast
      ring
    · simp [h10]
  · -- the new line q+1 is odd: acquire_point_reversed at column n-1
    have hqeven : q % 2 = 0 := by omega
    rw [if_neg hpar]
    simp only [acquire_point_reversed, setEntry?]
    have hlen0 : ¬ s.data.length = 0 := by rw [hd.1]; omega
    rw [if_neg hlen0]
    simp only [Nat.zero_mod, Nat.sub_zero]
    have hcond : q + 1 < s.data.length ∧
        s.data.length - 1 < (s.data.getD (q + 1) []).length := by
      refine ⟨by rw [hd.1]; exact hq1, ?_⟩
      rw [getD_row_eq hd hq1, hd.1]
      omega
    rw [if_pos hcond]
    refine ⟨_, rfl, ?_⟩
    constructor
    · simp [h1]
    · simp [h2]
    · simp [h3]; ring
    · simp [h4]; ring
    · simp
    · simp
    · simp only []
      rw [h7, h4, h8, h9, h1, (dims_snakeDataK cnt n st x0 y0 (n * q + n)).1]
      rw [show n * (q + 1) + 1 = (n * q + n) + 1 by ring]
      simp only [snakeDataK, hrow2, hcol2, if_neg hpar, snakeVal, hdiv2]
      congr 2
      · rw [if_pos hqeven]
        push_cast [Nat.cast_sub hn]
        ring
      · push_cast
        ring
    · simp only []
      rw [h8]
      simp only [if_pos hqeven, if_neg hpar]
      ring
    · simp only []
      rw [h9, h1]
      push_cast
      ring
    · simp [h10]


theorem n_mul_pred_add {n : ℕ} (hn : 0 < n) : n * (n - 1) + n = n ^ 2 := by
  obtain ⟨k, rfl⟩ : ∃ k, n = k + 1 := ⟨n - 1, by omega⟩
  simp [Nat.add_sub_cancel]
  ring

theorem snake_coords_final {n q t : ℕ} (hn : 0 < n) (hq : q < n) (ht : t ≤ n)
    (h : n * q + t = n ^ 2) : q = n - 1 ∧ t = n := by
  have hsq : n * (n - 1) + n = n ^ 2 := n_mul_pred_add hn
  by_cases hq1 : q = n - 1
  · subst hq1
    omega
  · exfalso
    have hq2 : q + 1 ≤ n - 1 := by omega
    have h1 : n * (q + 1) ≤ n * (n - 1) := Nat.mul_le_mul_left n hq2
    have h2 : n * (q + 1) = n * q + n := by ring
    omega

/-- The observable outcome of a completed snake scan that started from a state
with stage position `(x0, y0)` and `c0` prior centering calls. -/
structure SnakeFinal (cnt : Counter) (n : ℕ) (st x0 y0 : ℚ) (c0 : ℕ)
    (s : ScanState) : Prop where
  hstep : s.step = st
  hside : s.square_side = (n : ℚ) * st
  hiter : s.scan_iteration = n ^ 2 + 1
  hsamp : s.samples = n ^ 2
  hdata : s.data = snakeDataK cnt n st x0 y0 (n ^ 2)
  hcent : s.centerings = c0 + 2
  hx : s.x = x0 - 2 * (centeringSteps st ((n : ℚ) * st) : ℚ) * st
      + (if (n - 1) % 2 = 0 then ((n - 1 : ℕ) : ℚ) else ((n - n : ℕ) : ℚ)) * st
  hy : s.y = y0 - 2 * (centeringSteps st ((n : ℚ) * st) : ℚ) * st
      + ((n - 1 : ℕ) : ℚ) * st

theorem snake_scan_terminal {cnt : Counter} {n : ℕ} {st x0 y0 : ℚ} {c0 : ℕ}
    (hst : st ≠ 0) (hn : 0 < n)
    {s : ScanState} (inv : SnakeInv cnt n st x0 y0 c0 (n - 1) n s) :
    ∃ s', snake_scan cnt s = some (s', false) ∧
      SnakeFinal cnt n st x0 y0 c0 s' := by
  obtain ⟨h1, h2, h3, h4, h5, h6, h7, h8, h9, h10⟩ := inv
  have hsq : n * (n - 1) + n = n ^ 2 := n_mul_pred_add hn
  have cond0 : ¬ s.scan_iteration = 0 := by rw [h3]; omega
  have cond1 : (s.scan_iteration : ℚ) = (s.square_side / s.step) ^ 2 := by
    rw [h3, h2, h1, ratio_cancel hst, cast_eq_sq_iff]
    omega
  rw [snake_scan, if_neg cond0, if_pos cond1]
  obtain ⟨g1, g2, g3, g4, g5, g6, g7, g8, g9, g10⟩ := sbp_fields s
  refine ⟨_, rfl, ?_⟩
  constructor
  · simpa using g1.trans h1
  · simpa using g2.trans h2
  · show (set_scan_begin_position s).scan_iteration + 1 = n ^ 2 + 1
    rw [g6, h3, hsq]
  · show (set_scan_begin_position s).samples = n ^ 2
    rw [g9, h4, hsq]
  · show (set_scan_begin_position s).data = snakeDataK cnt n st x0 y0 (n ^ 2)
    rw [g5, h7, hsq]
  · show (set_scan_begin_position s).centerings = c0 + 2
    rw [g10, h10]
  · show (set_scan_begin_position s).x = _
    rw [g7, h8, h1, h2]
    ring
  · show (set_scan_begin_position s).y = _
    rw [g8, h9, h1, h2]
    ring

theorem snake_run {cnt : Counter} {n : ℕ} {st x0 y0 : ℚ} {c0 : ℕ}
    (hst : st ≠ 0) :
    ∀ m q t, 1 ≤ t → t ≤ n → q < n → n * q + t + m = n ^ 2 →
    ∀ s : ScanState, SnakeInv cnt n st x0 y0 c0 q t s →
    ∃ s', driveLoop (snake_scan cnt) (m + 1) s = some s' ∧
      SnakeFinal cnt n st x0 y0 c0 s' := by
  intro m
  induction m with
  | zero =>
    intro q t ht1 ht hq hm s inv
    have hn : 0 < n := by omega
    obtain ⟨hq', ht'⟩ := snake_coords_final hn hq ht (by omega)
    rw [hq', ht'] at inv
    obtain ⟨s', he, hf⟩ := snake_scan_terminal hst hn inv
    refine ⟨s', ?_, hf⟩
    rw [driveLoop, he]
  | succ m ih =>
    intro q t ht1 ht hq hm s inv
    have hn : 0 < n := by omega
    by_cases htn : t < n
    · obtain ⟨s1, he, inv1⟩ := snake_scan_stepA hst hq ht1 htn inv
      obtain ⟨s', he', hf⟩ := ih q (t + 1) (by omega) (by omega) hq (by omega) s1 inv1
      exact ⟨s', by rw [driveLoop, he]; exact he', hf⟩
    · have htn' : t = n := by omega
      rw [htn'] at inv
      have hq1 : q + 1 < n := by
        by_contra hcon
        have hqeq : q = n - 1 := by omega
        rw [hqeq] at hm
        have hsq := n_mul_pred_add hn
        omega
      obtain ⟨s1, he, inv1⟩ := snake_scan_stepB hst hq1 inv
      have e : n * (q + 1) = n * q + n := by ring
      obtain ⟨s', he', hf⟩ :=
        ih (q + 1) 1 (by omega) (by omega) (by omega) (by omega) s1 inv1
      exact ⟨s', by rw [driveLoop, he]; exact he', hf⟩

/-- A full snake scan from any freshly initialised state: `n^2 + 1` invocations
of `snake_scan` driven by the continue signal reach the terminal invocation,
with `n^2` acquisitions, one more centering call at the start and one at the
end, and the image buffer described by `snakeDataK`. -/
theorem snake_complete {cnt : Counter} {n : ℕ} {st : ℚ} (hn : 0 < n)
    (hst : st ≠ 0) (s : ScanState) (h1 : s.step = st)
    (h2 : s.square_side = (n : ℚ) * st) (h3 : s.scan_iteration = 0)
    (h4 : s.point = 0) (h5 : s.line = 0) (h6 : s.samples = 0)
    (h7 : s.data = zeros n) :
    ∃ s', driveSnake cnt (n ^ 2 + 1) s = some s' ∧
      SnakeFinal cnt n st s.x s.y s.centerings s' := by
  obtain ⟨s1, he, inv1⟩ := snake_scan_base hn s h1 h2 h3 h4 h5 h6 h7
  have hsq : 1 ≤ n ^ 2 := Nat.one_le_pow 2 n hn
  obtain ⟨s', he', hf⟩ := snake_run hst (n ^ 2 - 1) 0 1 (by omega) (by omega)
    hn (by omega) s1 inv1
  refine ⟨s', ?_, hf⟩
  rw [driveSnake, show n ^ 2 + 1 = (n ^ 2 - 1 + 1) + 1 by omega, driveLoop, he]
  exact he'

theorem init_scan_data {n : ℕ} {st : ℚ} (hst : st ≠ 0) (s : ScanState) :
    (init_scan st ((n : ℚ) * st) s).data = zeros n := by
  rw [init_scan]
  simp only [ratio_cancel hst, npRound_natCast, Int.toNat_natCast]


/-! Entrywise description of the snake image buffer. -/

theorem snakeRow_lt {n k : ℕ} (hn : 0 < n) (hk : k < n ^ 2) : snakeRow n k < n := by
  unfold snakeRow
  rw [Nat.div_lt_iff_lt_mul hn]
  calc k < n ^ 2 := hk
    _ = n * n := by ring

theorem snakeCol_lt {n k : ℕ} (hn : 0 < n) : snakeCol n k < n := by
  unfold snakeCol
  have h1 : k % n < n := Nat.mod_lt _ hn
  split
  · exact h1
  · omega

theorem snakeIdx_lt {n i j : ℕ} (hi : i < n) (hj : j < n) :
    snakeIdx n i j < n ^ 2 := by
  unfold snakeIdx
  have hc : (if i % 2 = 0 then j else n - 1 - j) < n := by split <;> omega
  calc n * i + (if i % 2 = 0 then j else n - 1 - j) < n * i + n := by omega
    _ = n * (i + 1) := by ring
    _ ≤ n * n := Nat.mul_le_mul_left n (by omega)
    _ = n ^ 2 := by ring

theorem snakeIdx_row_col {n k : ℕ} (hn : 0 < n) (hk : k < n ^ 2) :
    snakeIdx n (snakeRow n k) (snakeCol n k) = k := by
  unfold snakeIdx snakeRow snakeCol
  have h1 : k % n < n := Nat.mod_lt _ hn
  have h2 := Nat.div_add_mod k n
  split
  · omega
  · have : n - 1 - (n - 1 - k % n) = k % n := by omega
    rw [this]
    omega

theorem snakeRow_idx {n i j : ℕ} (hn : 0 < n) (hj : j < n) :
    snakeRow n (snakeIdx n i j) = i := by
  unfold snakeRow snakeIdx
  have hc : (if i % 2 = 0 then j else n - 1 - j) < n := by split <;> omega
  rw [Nat.mul_add_div hn, Nat.div_eq_of_lt hc, Nat.add_zero]

theorem snakeCol_idx {n i j : ℕ} (hn : 0 < n) (hj : j < n) :
    snakeCol n (snakeIdx n i j) = j := by
  unfold snakeCol snakeIdx
  have hc : (if i % 2 = 0 then j else n - 1 - j) < n := by split <;> omega
  rw [Nat.mul_add_div hn, Nat.div_eq_of_lt hc, Nat.add_zero, mod_mul_add hc]
  split
  · rfl
  · omega

theorem getEntry_snakeDataK (cnt : Counter) (n : ℕ) (st x0 y0 : ℚ)
    (hn : 0 < n) :
    ∀ k, k ≤ n ^ 2 → ∀ i j, i < n → j < n →
      getEntry (snakeDataK cnt n st x0 y0 k) i j =
        if snakeIdx n i j < k then snakeVal cnt n st x0 y0 (snakeIdx n i j)
        else 0 := by
  intro k
  induction k with
  | zero =>
    intro _ i j hi hj
    rw [if_neg (by omega)]
    exact getEntry_zeros n i j
  | succ k ih =>
    intro hk i j hi hj
    have hk' : k < n ^ 2 := by omega
    have hd : Dims n (snakeDataK cnt n st x0 y0 k) := dims_snakeDataK _ _ _ _ _ _
    by_cases hij : i = snakeRow n k ∧ j = snakeCol n k
    · obtain ⟨hi', hj'⟩ := hij
      subst hi'
      subst hj'
      rw [show snakeDataK cnt n st x0 y0 (k + 1)
            = setEntryT (snakeDataK cnt n st x0 y0 k) (snakeRow n k)
                (snakeCol n k) (snakeVal cnt n st x0 y0 k) from rfl]
      rw [getEntry_setEntryT_self _ (by rw [hd.1]; exact snakeRow_lt hn hk')
        (by rw [getD_row_eq hd (snakeRow_lt hn hk')]; exact snakeCol_lt hn)]
      rw [if_pos (by rw [snakeIdx_row_col hn hk']; omega), snakeIdx_row_col hn hk']
    · have hne : ¬ (snakeIdx n i j = k) := by
        intro he
        exact hij ⟨by rw [← he, snakeRow_idx hn hj], by rw [← he, snakeCol_idx hn hj]⟩
      rw [show snakeDataK cnt n st x0 y0 (k + 1)
            = setEntryT (snakeDataK cnt n st x0 y0 k) (snakeRow n k)
                (snakeCol n k) (snakeVal cnt n st x0 y0 k) from rfl]
      rw [getEntry_setEntryT_ne _ (by tauto), ih (by omega) i j hi hj]
      by_cases hlt : snakeIdx n i j < k
      · rw [if_pos hlt, if_pos (by omega)]
      · rw [if_neg hlt, if_neg (by omega)]


/-! The loop-based interfuse snake scan, specialised to a counter that depends
only on the sample index. -/

/-- A fake counter whose value is a function of the sample index alone. -/
def idxCnt (f : ℕ → ℤ) : Counter := fun k _ _ => f k

theorem snakeVal_idxCnt (f : ℕ → ℤ) (n : ℕ) (st x0 y0 : ℚ) (j : ℕ) :
    snakeVal (idxCnt f) n st x0 y0 j = f j := rfl

theorem fwdLine_succ (cnt : Counter) (m j k : ℕ) (s : ScanState) :
    Interfuse.fwdLine cnt m j (k + 1) s =
      Interfuse.fwdLine cnt m (j + 1) k
        { s with x := s.x + s.step, y := s.y + 0, z := s.z + 0,
                 data := setEntryT s.data m j
                   (cnt s.samples (s.x + s.step) (s.y + 0)),
                 samples := s.samples + 1,
                 events := s.events ++ [Ev.move s.step 0 0]
                   ++ [Ev.acq (cnt s.samples (s.x + s.step) (s.y + 0))] } := rfl

theorem revLine_succ (cnt : Counter) (m j k : ℕ) (s : ScanState) :
    Interfuse.revLine cnt m j (k + 1) s =
      Interfuse.revLine cnt m (j - 1) k
        { s with x := s.x + -s.step, y := s.y + 0, z := s.z + 0,
                 data := setEntryT s.data m j
                   (cnt s.samples (s.x + -s.step) (s.y + 0)),
                 samples := s.samples + 1,
                 events := s.events ++ [Ev.move (-s.step) 0 0]
                   ++ [Ev.acq (cnt s.samples (s.x + -s.step) (s.y + 0))] } := rfl

theorem fwdLine_spec (f : ℕ → ℤ) (n m : ℕ) (hm : m < n) :
    ∀ k j (s : ScanState), Dims n s.data → j + k ≤ n →
      Dims n (Interfuse.fwdLine (idxCnt f) m j k s).data ∧
      (Interfuse.fwdLine (idxCnt f) m j k s).samples = s.samples + k ∧
      (Interfuse.fwdLine (idxCnt f) m j k s).step = s.step ∧
      ∀ i' j', getEntry (Interfuse.fwdLine (idxCnt f) m j k s).data i' j' =
        if i' = m ∧ j ≤ j' ∧ j' < j + k then f (s.samples + (j' - j))
        else getEntry s.data i' j' := by
  intro k
  induction k with
  | zero =>
    intro j s hd hjk
    refine ⟨hd, by simp [Interfuse.fwdLine], by simp [Interfuse.fwdLine], ?_⟩
    intro i' j'
    rw [if_neg (by omega)]
    simp [Interfuse.fwdLine]
  | succ k ih =>
    intro j s hd hjk
    rw [fwdLine_succ]
    set s1 : ScanState :=
      { s with x := s.x + s.step, y := s.y + 0, z := s.z + 0,
               data := setEntryT s.data m j
                 (idxCnt f s.samples (s.x + s.step) (s.y + 0)),
               samples := s.samples + 1,
               events := s.events ++ [Ev.move s.step 0 0]
                 ++ [Ev.acq (idxCnt f s.samples (s.x + s.step) (s.y + 0))] }
      with hs1
    have hs1d : s1.data = setEntryT s.data m j (f s.samples) := by
      rw [hs1]
      rfl
    have hs1s : s1.samples = s.samples + 1 := by rw [hs1]
    have hs1t : s1.step = s.step := by rw [hs1]
    have hd1 : Dims n s1.data := by rw [hs1d]; exact dims_setEntryT hd m j _
    obtain ⟨d1, d2, d3, d4⟩ := ih (j + 1) s1 hd1 (by omega)
    refine ⟨d1, by rw [d2, hs1s]; omega, by rw [d3, hs1t], ?_⟩
    intro i' j'
    rw [d4 i' j']
    by_cases hc1 : i' = m ∧ j + 1 ≤ j' ∧ j' < j + 1 + k
    · rw [if_pos hc1, if_pos ⟨hc1.1, by omega, by omega⟩, hs1s]
      congr 1
      omega
    · rw [if_neg hc1, hs1d]
      by_cases hc2 : i' = m ∧ j' = j
      · obtain ⟨e1, e2⟩ := hc2
        rw [e1, e2]
        rw [getEntry_setEntryT_self _ (by rw [hd.1]; exact hm)
          (by rw [getD_row_eq hd hm]; omega)]
        rw [if_pos ⟨rfl, by omega, by omega⟩]
        congr 1
        omega
      · have hne : i' ≠ m ∨ j' ≠ j := by tauto
        rw [getEntry_setEntryT_ne _ hne]
        rw [if_neg (by rintro ⟨ha, hb, hc⟩
                       rcases Nat.eq_or_lt_of_le hb with he | hlt
                       · exact hc2 ⟨ha, he.symm⟩
                       · exact hc1 ⟨ha, by omega, by omega⟩)]

theorem revLine_spec (f : ℕ → ℤ) (n m : ℕ) (hm : m < n) :
    ∀ k j (s : ScanState), Dims n s.data → j < n → k ≤ j + 1 →
      Dims n (Interfuse.revLine (idxCnt f) m j k s).data ∧
      (Interfuse.revLine (idxCnt f) m j k s).samples = s.samples + k ∧
      (Interfuse.revLine (idxCnt f) m j k s).step = s.step ∧
      ∀ i' j', getEntry (Interfuse.revLine (idxCnt f) m j k s).data i' j' =
        if i' = m ∧ j' ≤ j ∧ j < j' + k then f (s.samples + (j - j'))
        else getEntry s.data i' j' := by
  intro k
  induction k with
  | zero =>
    intro j s hd hjn hjk
    refine ⟨hd, by simp [Interfuse.revLine], by simp [Interfuse.revLine], ?_⟩
    intro i' j'
    rw [if_neg (by omega)]
    simp [Interfuse.revLine]
  | succ k ih =>
    intro j s hd hjn hjk
    rw [revLine_succ]
    set s1 : ScanState :=
      { s with x := s.x + -s.step, y := s.y + 0, z := s.z + 0,
               data := setEntryT s.data m j
                 (idxCnt f s.samples (s.x + -s.step) (s.y + 0)),
               samples := s.samples + 1,
               events := s.events ++ [Ev.move (-s.step) 0 0]
                 ++ [Ev.acq (idxCnt f s.samples (s.x + -s.step) (s.y + 0))] }
      with hs1
    have hs1d : s1.data = setEntryT s.data m j (f s.samples) := by
      rw [hs1]
      rfl
    have hs1s : s1.samples = s.samples + 1 := by rw [hs1]
    have hs1t : s1.step = s.step := by rw [hs1]
    have hd1 : Dims n s1.data := by rw [hs1d]; exact dims_setEntryT hd m j _
    obtain ⟨d1, d2, d3, d4⟩ := ih (j - 1) s1 hd1 (by omega) (by omega)
    refine ⟨d1, by rw [d2, hs1s]; omega, by rw [d3, hs1t], ?_⟩
    intro i' j'
    rw [d4 i' j']
    by_cases hc1 : i' = m ∧ j' ≤ j - 1 ∧ j - 1 < j' + k
    · rw [if_pos hc1, if_pos ⟨hc1.1, by omega, by omega⟩, hs1s]
      congr 1
      omega
    · rw [if_neg hc1, hs1d]
      by_cases hc2 : i' = m ∧ j' = j
      · obtain ⟨e1, e2⟩ := hc2
        rw [e1, e2]
        rw [getEntry_setEntryT_self _ (by rw [hd.1]; exact hm)
          (by rw [getD_row_eq hd hm]; omega)]
        rw [if_pos ⟨rfl, by omega, by omega⟩]
        congr 1
        omega
      · have hne : i' ≠ m ∨ j' ≠ j := by tauto
        rw [getEntry_setEntryT_ne _ hne]
        rw [if_neg (by rintro ⟨ha, hb, hc⟩
                       rcases Nat.eq_or_lt_of_le hb with he | hlt
                       · exact hc2 ⟨ha, he⟩
                       · exact hc1 ⟨ha, by omega, by omega⟩)]


theorem lines_spec (f : ℕ → ℤ) (n : ℕ) :
    ∀ k m (s : ScanState), Dims n s.data → m + k ≤ n →
      Dims n (Interfuse.lines (idxCnt f) n m k s).data ∧
      (Interfuse.lines (idxCnt f) n m k s).samples = s.samples + k * n ∧
      ∀ i' j', getEntry (Interfuse.lines (idxCnt f) n m k s).data i' j' =
        if m ≤ i' ∧ i' < m + k ∧ j' < n then
          f (s.samples + (i' - m) * n + (if i' % 2 = 0 then j' else n - 1 - j'))
        else getEntry s.data i' j' := by
  intro k
  induction k with
  | zero =>
    intro m s hd hmk
    refine ⟨hd, by simp [Interfuse.lines], ?_⟩
    intro i' j'
    rw [if_neg (by omega)]
    simp [Interfuse.lines]
  | succ k ih =>
    intro m s hd hmk
    have hm : m < n := by omega
    have hn : 0 < n := by omega
    simp only [Interfuse.lines]
    by_cases hpar : m % 2 = 0
    · rw [if_pos hpar]
      obtain ⟨d1, d2, d3, d4⟩ := fwdLine_spec f n m hm n 0 s hd (by omega)
      set s1 := Interfuse.fwdLine (idxCnt f) m 0 n s with hs1
      obtain ⟨r1, r2, r3⟩ := ih (m + 1) (move_scanner_xyz 0 s1.step 0 s1)
        (by rw [move_xyz_data]; exact d1) (by omega)
      refine ⟨r1, ?_, ?_⟩
      · rw [r2, move_xyz_samples, d2]
        have e : (k + 1) * n = k * n + n := by ring
        omega
      · intro i' j'
        rw [r3 i' j', move_xyz_samples, move_xyz_data]
        by_cases hc1 : m + 1 ≤ i' ∧ i' < m + 1 + k ∧ j' < n
        · rw [if_pos hc1,
            if_pos (show m ≤ i' ∧ i' < m + (k + 1) ∧ j' < n from
              ⟨by omega, by omega, hc1.2.2⟩), d2]
          have hmul : (i' - m) * n = (i' - (m + 1)) * n + n := by
            have e2 : i' - (m + 1) + 1 = i' - m := by omega
            calc (i' - m) * n = (i' - (m + 1) + 1) * n := by rw [e2]
              _ = (i' - (m + 1)) * n + n := by ring
          congr 1
          rw [hmul]
          ring
        · rw [if_neg hc1, d4 i' j']
          by_cases hc2 : i' = m ∧ j' < n
          · obtain ⟨e1, e2⟩ := hc2
            rw [if_pos (show i' = m ∧ 0 ≤ j' ∧ j' < 0 + n from
                ⟨e1, by omega, by omega⟩),
              if_pos (show m ≤ i' ∧ i' < m + (k + 1) ∧ j' < n from
                ⟨by omega, by omega, e2⟩), e1, if_pos hpar]
            have e0 : (m - m) * n = 0 := by simp
            congr 1
            omega
          · rw [if_neg (show ¬ (i' = m ∧ 0 ≤ j' ∧ j' < 0 + n) from by
                rintro ⟨ha, hb, hc⟩
                exact hc2 ⟨ha, by omega⟩),
              if_neg (show ¬ (m ≤ i' ∧ i' < m + (k + 1) ∧ j' < n) from by
                rintro ⟨ha, hb, hc⟩
                by_cases him : i' = m
                · exact hc2 ⟨him, hc⟩
                · exact hc1 ⟨by omega, by omega, hc⟩)]
    · rw [if_neg hpar]
      obtain ⟨d1, d2, d3, d4⟩ :=
        revLine_spec f n m hm n (n - 1) s hd (by omega) (by omega)
      set s1 := Interfuse.revLine (idxCnt f) m (n - 1) n s with hs1
      obtain ⟨r1, r2, r3⟩ := ih (m + 1) (move_scanner_xyz 0 s1.step 0 s1)
        (by rw [move_xyz_data]; exact d1) (by omega)
      refine ⟨r1, ?_, ?_⟩
      · rw [r2, move_xyz_samples, d2]
        have e : (k + 1) * n = k * n + n := by ring
        omega
      · intro i' j'
        rw [r3 i' j', move_xyz_samples, move_xyz_data]
        by_cases hc1 : m + 1 ≤ i' ∧ i' < m + 1 + k ∧ j' < n
        · rw [if_pos hc1,
            if_pos (show m ≤ i' ∧ i' < m + (k + 1) ∧ j' < n from
              ⟨by omega, by omega, hc1.2.2⟩), d2]
          have hmul : (i' - m) * n = (i' - (m + 1)) * n + n := by
            have e2 : i' - (m + 1) + 1 = i' - m := by omega
            calc (i' - m) * n = (i' - (m + 1) + 1) * n := by rw [e2]
              _ = (i' - (m + 1)) * n + n := by ring
          congr 1
          rw [hmul]
          ring
        · rw [if_neg hc1, d4 i' j']
          by_cases hc2 : i' = m ∧ j' < n
          · obtain ⟨e1, e2⟩ := hc2
            rw [if_pos (show i' = m ∧ j' ≤ n - 1 ∧ n - 1 < j' + n from
                ⟨e1, by omega, by omega⟩),
              if_pos (show m ≤ i' ∧ i' < m + (k + 1) ∧ j' < n from
                ⟨by omega, by omega, e2⟩), e1, if_neg hpar]
            have e0 : (m - m) * n = 0 := by simp
            congr 1
            omega
          · rw [if_neg (show ¬ (i' = m ∧ j' ≤ n - 1 ∧ n - 1 < j' + n) from by
                rintro ⟨ha, hb, hc⟩
                exact hc2 ⟨ha, by omega⟩),
              if_neg (show ¬ (m ≤ i' ∧ i' < m + (k + 1) ∧ j' < n) from by
                rintro ⟨ha, hb, hc⟩
                by_cases him : i' = m
                · exact hc2 ⟨him, hc⟩
                · exact hc1 ⟨by omega, by omega, hc⟩)]

/-- Helper: the interfuse line loop over a fresh `n × n` zero buffer with the
sample counter at zero. -/
theorem fuse_lines_fresh (f : ℕ → ℤ) (n : ℕ) (hn : 0 < n) (s : ScanState)
    (hd : s.data = zeros n) (hsm : s.samples = 0) :
    Dims n (Interfuse.lines (idxCnt f) n 0 n s).data ∧
    ∀ i j, i < n → j < n →
      getEntry (Interfuse.lines (idxCnt f) n 0 n s).data i j
        = f (snakeIdx n i j) := by
  obtain ⟨d1, d2, d3⟩ := lines_spec f n n 0 s (by rw [hd]; exact dims_zeros n)
    (by omega)
  refine ⟨d1, ?_⟩
  intro i j hi hj
  rw [d3 i j, if_pos (show 0 ≤ i ∧ i < 0 + n ∧ j < n from
    ⟨Nat.zero_le i, by omega, hj⟩), hsm]
  congr 1
  have e : (i - 0) * n = n * i := by rw [Nat.sub_zero, Nat.mul_comm]
  unfold snakeIdx
  split_ifs with hp
  · omega
  · omega

/-- The image buffer returned by the interfuse `snake_scan` over an `n × n`
region, run with a sample-indexed counter: cell `(i, j)` holds the
`snakeIdx n i j`-th sample. -/
theorem fuse_scan_spec (f : ℕ → ℤ) {n : ℕ} {st : ℚ} (hn : 0 < n)
    (hst : st ≠ 0) (s0 : ScanState) :
    Dims n (Interfuse.snake_scan (idxCnt f) st ((n : ℚ) * st) s0).data ∧
    ∀ i j, i < n → j < n →
      getEntry (Interfuse.snake_scan (idxCnt f) st ((n : ℚ) * st) s0).data i j
        = f (snakeIdx n i j) := by
  have hspn : ((npRound (((n : ℚ) * st) / st)).toNat) = n := by
    rw [ratio_cancel hst, npRound_natCast, Int.toNat_natCast]
  rw [Interfuse.snake_scan, Interfuse.create_map]
  simp only [hspn]
  exact fuse_lines_fresh f n hn _ rfl rfl


/-! The trampoline horizontal scan: state invariant and its preservation. -/

theorem cast_eq_sq_sub_one_iff (k n : ℕ) (hn : 0 < n) :
    ((k : ℕ) : ℚ) = (n : ℚ) ^ 2 - 1 ↔ k + 1 = n ^ 2 := by
  have hsq : 1 ≤ n ^ 2 := Nat.one_le_pow 2 n hn
  rw [show ((n : ℚ) ^ 2 - 1) = ((n ^ 2 - 1 : ℕ) : ℚ) by
    push_cast [Nat.cast_sub hsq]
    ring]
  rw [Nat.cast_inj]
  omega

/-- State invariant of the trampoline `horizontal_scan` over an `n × n` region
(`n ≥ 2`): the state after `k` invocations, `1 ≤ k ≤ n² - 1`. -/
structure HorizInv (n : ℕ) (st : ℚ) (c0 k : ℕ) (s : ScanState) : Prop where
  hstep : s.step = st
  hside : s.square_side = (n : ℚ) * st
  hiter : s.scan_iteration = k
  hsamp : s.samples = k
  hpoint : s.point = k % n
  hline : s.line = k / n
  hdims : Dims n s.data
  hcent : s.centerings = c0 + 1
  hgap : getEntry s.data 0 1 = 0

/-- The observable outcome of a completed horizontal scan: cell `(0, 1)` of
the image buffer is never written. -/
structure HorizFinal (n : ℕ) (st : ℚ) (c0 : ℕ) (s : ScanState) : Prop where
  hsamp : s.samples = n ^ 2 - 1
  hcent : s.centerings = c0 + 2
  hiter : s.scan_iteration = n ^ 2
  hstep : s.step = st
  hside : s.square_side = (n : ℚ) * st
  hgap : getEntry s.data 0 1 = 0

theorem horizontal_scan_base {cnt : Counter} {n : ℕ} {st : ℚ} (hn : 2 ≤ n)
    (s : ScanState) (h1 : s.step = st) (h2 : s.square_side = (n : ℚ) * st)
    (h3 : s.scan_iteration = 0) (h4 : s.point = 0) (h5 : s.line = 0)
    (h6 : s.samples = 0) (h7 : s.data = zeros n) :
    ∃ s', horizontal_scan cnt s = some (s', true) ∧
      HorizInv n st s.centerings 1 s' := by
  rw [horizontal_scan, if_pos h3]
  obtain ⟨g1, g2, g3, g4, g5, g6, g7, g8, g9, g10⟩ := sbp_fields s
  set s1 := set_scan_begin_position s with hs1
  have hd : Dims n s1.data := by rw [g5, h7]; exact dims_zeros n
  have hline : s1.line < n := by rw [g4, h5]; omega
  have hpoint : s1.point < n := by rw [g3, h4]; omega
  simp only [acquire_point_eq hd hline hpoint]
  refine ⟨_, rfl, ?_⟩
  constructor
  · simpa using g1.trans h1
  · simpa using g2.trans h2
  · simpa using by rw [g6, h3]
  · simpa using by rw [g9, h6]
  · simpa using by rw [g3, h4, Nat.mod_eq_of_lt (by omega : 1 < n)]
  · simpa using by rw [g4, h5, Nat.div_eq_of_lt (by omega : 1 < n)]
  · show Dims n (setEntryT s1.data s1.line s1.point (cnt s1.samples s1.x s1.y))
    exact dims_setEntryT hd _ _ _
  · simpa using g10
  · show getEntry (setEntryT s1.data s1.line s1.point (cnt s1.samples s1.x s1.y))
      0 1 = 0
    rw [getEntry_setEntryT_ne _ (Or.inr (by rw [g3, h4]; omega)), g5, h7]
    exact getEntry_zeros n 0 1

theorem horizontal_scan_step {cnt : Counter} {n : ℕ} {st : ℚ} {c0 k : ℕ}
    (hn : 2 ≤ n) (hst : st ≠ 0) (hk1 : 1 ≤ k) (hk : k ≤ n ^ 2 - 2)
    {s : ScanState} (inv : HorizInv n st c0 k s) :
    ∃ s', horizontal_scan cnt s = some (s', true) ∧
      HorizInv n st c0 (k + 1) s' := by
  obtain ⟨h1, h2, h3, h4, h5, h6, h7, h8, h9⟩ := inv
  have hn0 : 0 < n := by omega
  have hsq : 4 ≤ n ^ 2 := by
    have h := Nat.mul_le_mul hn hn
    calc 4 = 2 * 2 := rfl
      _ ≤ n * n := h
      _ = n ^ 2 := by ring
  have hkd := Nat.div_add_mod k n
  have hmodlt : k % n < n := Nat.mod_lt _ hn0
  have cond0 : ¬ s.scan_iteration = 0 := by rw [h3]; omega
  have cond1 : ¬ ((s.scan_iteration : ℚ) = (s.square_side / s.step) ^ 2 - 1) := by
    rw [h3, h2, h1, ratio_cancel hst, cast_eq_sq_sub_one_iff _ _ hn0]
    omega
  have hlinelt : k / n < n := by
    rw [Nat.div_lt_iff_lt_mul hn0]
    calc k ≤ n ^ 2 - 2 := hk
      _ < n ^ 2 := by omega
      _ = n * n := by ring
  rw [horizontal_scan, if_neg cond0, if_neg cond1]
  by_cases hcase : k % n = n - 1
  · -- line completed: vertical move, fly-back, next line starts at column 0
    have cond2 : (s.point : ℤ) = pyInt (s.square_side / s.step) - 1 := by
      rw [h5, h2, h1, ratio_cancel hst, pyInt_natCast, hcase]
      push_cast [Nat.cast_sub (by omega : 1 ≤ n)]
      ring
    have hlin2 : k / n + 1 < n := by
      have hb := n_mul_pred_add hn0
      have ha : n * (k / n) < n * (n - 1) := by omega
      have := Nat.lt_of_mul_lt_mul_left ha
      omega
    have hmod1 : (k + 1) % n = 0 := by
      have e1 : k + 1 = n * (k / n + 1) := by
        have e : n * (k / n + 1) = n * (k / n) + n := by ring
        omega
      rw [e1, Nat.mul_mod_right]
    have hdiv1 : (k + 1) / n = k / n + 1 := by
      have e1 : k + 1 = n * (k / n + 1) := by
        have e : n * (k / n + 1) = n * (k / n) + n := by ring
        omega
      rw [e1, Nat.mul_div_cancel_left _ hn0]
    rw [if_pos cond2]
    simp only [move_xyz_line, move_xyz_point, move_xyz_data, move_xyz_samples,
      move_xyz_x, move_xyz_y, move_xyz_step, move_xyz_side, move_xyz_iter,
      move_xyz_centerings]
    simp only [acquire_point, setEntry?]
    have hcond : s.line + 1 < s.data.length ∧
        0 < (s.data.getD (s.line + 1) []).length := by
      have hl : s.line + 1 < n := by rw [h6]; exact hlin2
      constructor
      · rw [h7.1]
        exact hl
      · rw [getD_row_eq h7 hl]
        omega
    rw [if_pos hcond]
    refine ⟨_, rfl, ?_⟩
    constructor
    · simp [h1]
    · simp [h2]
    · simp [h3]
    · simp [h4]
    · simp [hmod1]
    · simp [h6, hdiv1]
    · show Dims n (setEntryT s.data (s.line + 1) 0 _)
      exact dims_setEntryT h7 _ _ _
    · simp [h8]
    · show getEntry (setEntryT s.data (s.line + 1) 0 _) 0 1 = 0
      rw [getEntry_setEntryT_ne _ (Or.inl (by omega))]
      exact h9
  · -- line not completed: horizontal move, next column
    have cond2 : ¬ ((s.point : ℤ) = pyInt (s.square_side / s.step) - 1) := by
      rw [h5, h2, h1, ratio_cancel hst, pyInt_natCast]
      intro hcon
      apply hcase
      have : ((k % n : ℕ) : ℤ) = ((n - 1 : ℕ) : ℤ) := by
        rw [hcon]
        push_cast [Nat.cast_sub (by omega : 1 ≤ n)]
        ring
      exact_mod_cast this
    have hmodlt1 : k % n + 1 < n := by omega
    have hmod1 : (k + 1) % n = k % n + 1 := by
      have e1 : k + 1 = n * (k / n) + (k % n + 1) := by omega
      rw [e1, Nat.mul_add_mod, Nat.mod_eq_of_lt hmodlt1]
    have hdiv1 : (k + 1) / n = k / n := by
      have e1 : k + 1 = n * (k / n) + (k % n + 1) := by omega
      rw [e1, Nat.mul_add_div hn0, Nat.div_eq_of_lt hmodlt1, Nat.add_zero]
    rw [if_neg cond2]
    simp only [move_xyz_line, move_xyz_point, move_xyz_data, move_xyz_samples,
      move_xyz_x, move_xyz_y, move_xyz_step, move_xyz_side, move_xyz_iter,
      move_xyz_centerings]
    simp only [acquire_point, setEntry?]
    have hcond : s.line < s.data.length ∧
        s.point + 1 < (s.data.getD s.line []).length := by
      constructor
      · rw [h7.1, h6]
        exact hlinelt
      · rw [getD_row_eq h7 (by rw [h6]; exact hlinelt), h5]
        exact hmodlt1
    rw [if_pos hcond]
    refine ⟨_, rfl, ?_⟩
    constructor
    · simp [h1]
    · simp [h2]
    · simp [h3]
    · simp [h4]
    · simp [h5, hmod1]
    · simp [h6, hdiv1]
    · show Dims n (setEntryT s.data s.line (s.point + 1) _)
      exact dims_setEntryT h7 _ _ _
    · simp [h8]
    · show getEntry (setEntryT s.data s.line (s.point + 1) _) 0 1 = 0
      rw [getEntry_setEntryT_ne _ ?_]
      · exact h9
      · rw [h5, h6]
        rcases Nat.eq_zero_or_pos (k / n) with hz | hp
        · refine Or.inr ?_
          have hkn : k < n := (Nat.div_eq_zero_iff (by omega)).mp hz
          rw [Nat.mod_eq_of_lt hkn]
          omega
        · exact Or.inl (by omega)

theorem horizontal_scan_terminal {cnt : Counter} {n : ℕ} {st : ℚ} {c0 : ℕ}
    (hn : 2 ≤ n) (hst : st ≠ 0)
    {s : ScanState} (inv : HorizInv n st c0 (n ^ 2 - 1) s) :
    ∃ s', horizontal_scan cnt s = some (s', false) ∧
      HorizFinal n st c0 s' := by
  obtain ⟨h1, h2, h3, h4, h5, h6, h7, h8, h9⟩ := inv
  have hn0 : 0 < n := by omega
  have hsq : 4 ≤ n ^ 2 := by
    have h := Nat.mul_le_mul hn hn
    calc 4 = 2 * 2 := rfl
      _ ≤ n * n := h
      _ = n ^ 2 := by ring
  have cond0 : ¬ s.scan_iteration = 0 := by rw [h3]; omega
  have cond1 : (s.scan_iteration : ℚ) = (s.square_side / s.step) ^ 2 - 1 := by
    rw [h3, h2, h1, ratio_cancel hst, cast_eq_sq_sub_one_iff _ _ hn0]
    omega
  rw [horizontal_scan, if_neg cond0, if_pos cond1]
  obtain ⟨g1, g2, g3, g4, g5, g6, g7, g8, g9, g10⟩ := sbp_fields s
  refine ⟨_, rfl, ?_⟩
  constructor
  · show (set_scan_begin_position s).samples = n ^ 2 - 1
    rw [g9, h4]
  · show (set_scan_begin_position s).centerings = c0 + 2
    rw [g10, h8]
  · show (set_scan_begin_position s).scan_iteration + 1 = n ^ 2
    rw [g6, h3]
    omega
  · show (set_scan_begin_position s).step = st
    rw [g1, h1]
  · show (set_scan_begin_position s).square_side = (n : ℚ) * st
    rw [g2, h2]
  · show getEntry (set_scan_begin_position s).data 0 1 = 0
    rw [g5]
    exact h9

theorem horiz_run {cnt : Counter} {n : ℕ} {st : ℚ} {c0 : ℕ}
    (hn : 2 ≤ n) (hst : st ≠ 0) :
    ∀ m k, 1 ≤ k → k + m = n ^ 2 - 1 →
    ∀ s : ScanState, HorizInv n st c0 k s →
    ∃ s', driveLoop (horizontal_scan cnt) (m + 1) s = some s' ∧
      HorizFinal n st c0 s' := by
  intro m
  induction m with
  | zero =>
    intro k hk1 hkm s inv
    have hkeq : k = n ^ 2 - 1 := by omega
    rw [hkeq] at inv
    obtain ⟨s', he, hf⟩ := horizontal_scan_terminal hn hst inv
    refine ⟨s', ?_, hf⟩
    rw [driveLoop, he]
  | succ m ih =>
    intro k hk1 hkm s inv
    have hsq : 4 ≤ n ^ 2 := by
      have h := Nat.mul_le_mul hn hn
      calc 4 = 2 * 2 := rfl
        _ ≤ n * n := h
        _ = n ^ 2 := by ring
    obtain ⟨s1, he, inv1⟩ :=
      horizontal_scan_step hn hst hk1 (by omega) inv
    obtain ⟨s', he', hf⟩ := ih (k + 1) (by omega) (by omega) s1 inv1
    exact ⟨s', by rw [driveLoop, he]; exact he', hf⟩

/-- A full horizontal scan from any freshly initialised state over an `n × n`
region with `n ≥ 2`: `n^2` invocations reach the terminal one, with only
`n^2 - 1` acquisitions. -/
theorem horizontal_complete {cnt : Counter} {n : ℕ} {st : ℚ} (hn : 2 ≤ n)
    (hst : st ≠ 0) (s : ScanState) (h1 : s.step = st)
    (h2 : s.square_side = (n : ℚ) * st) (h3 : s.scan_iteration = 0)
    (h4 : s.point = 0) (h5 : s.line = 0) (h6 : s.samples = 0)
    (h7 : s.data = zeros n) :
    ∃ s', driveHorizontal cnt (n ^ 2) s = some s' ∧
      HorizFinal n st s.centerings s' := by
  have hsq : 4 ≤ n ^ 2 := by
    have h := Nat.mul_le_mul hn hn
    calc 4 = 2 * 2 := rfl
      _ ≤ n * n := h
      _ = n ^ 2 := by ring
  obtain ⟨s1, he, inv1⟩ := horizontal_scan_base hn s h1 h2 h3 h4 h5 h6 h7
  obtain ⟨s', he', hf⟩ := horiz_run hn hst (n ^ 2 - 2) 1 (by omega) (by omega)
    s1 inv1
  refine ⟨s', ?_, hf⟩
  rw [driveHorizontal, show n ^ 2 = ((n ^ 2 - 2) + 1) + 1 by omega, driveLoop, he]
  exact he'


/-! Per-invocation behaviour on arbitrary states. -/

theorem acquire_point_some_eq {cnt : Counter} {s s2 : ScanState}
    (h : acquire_point cnt s = some s2) :
    s2 = { s with
      data := setEntryT s.data s.line s.point (cnt s.samples s.x s.y),
      samples := s.samples + 1,
      events := s.events ++ [Ev.acq (cnt s.samples s.x s.y)] } := by
  rw [acquire_point] at h
  split at h
  · simp at h
  · next d heq =>
    rw [setEntry?] at heq
    split at heq
    · obtain rfl := Option.some_inj.mp heq
      exact (Option.some_inj.mp h).symm
    · cases heq

theorem acquire_point_reversed_some_eq {cnt : Counter} {s s2 : ScanState}
    (h : acquire_point_reversed cnt s = some s2) :
    s2 = { s with
      data := setEntryT s.data s.line
        (s.data.length - s.point % s.data.length - 1) (cnt s.samples s.x s.y),
      samples := s.samples + 1,
      events := s.events ++ [Ev.acq (cnt s.samples s.x s.y)] } := by
  rw [acquire_point_reversed] at h
  split_ifs at h with h0
  split at h
  · simp at h
  · next d heq =>
    rw [setEntry?] at heq
    split at heq
    · obtain rfl := Option.some_inj.mp heq
      exact (Option.some_inj.mp h).symm
    · cases heq

/-- Branch analysis of a single successful `snake_scan` invocation: the
iteration counter increases by exactly one, the image buffer receives at most
one write, and the terminal invocation (the one that does not re-emit the
continue signal) does not write at all. -/
theorem snake_scan_cases {cnt : Counter} {s s' : ScanState} {b : Bool}
    (h : snake_scan cnt s = some (s', b)) :
    s'.scan_iteration = s.scan_iteration + 1 ∧
    (s'.data = s.data ∨ ∃ r c v, s'.data = setEntryT s.data r c v) ∧
    (b = false → s'.data = s.data) := by
  obtain ⟨g1, g2, g3, g4, g5, g6, g7, g8, g9, g10⟩ := sbp_fields s
  rw [snake_scan] at h
  dsimp only at h
  split_ifs at h with hc1 hc2 hc3 hc4 hc5
  · -- first invocation
    split at h
    · simp at h
    · next s2 heq =>
      injection h with hp
      injection hp with h1 h2
      rw [acquire_point_some_eq heq] at h1
      refine ⟨?_, ?_, ?_⟩
      · rw [← h1]
        simp [g6]
      · exact Or.inr ⟨_, _, _, by rw [← h1]; simp [g3, g4, g5]; all_goals rfl⟩
      · intro hb
        rw [← h2] at hb
        cases hb
  · -- terminal invocation
    injection h with hp
    injection hp with h1 h2
    refine ⟨?_, ?_, ?_⟩
    · rw [← h1]
      simp [g6]
    · refine Or.inl ?_
      rw [← h1]
      simp [g5]
    · intro _
      rw [← h1]
      simp [g5]
  · -- line completed, new line even
    split at h
    · simp at h
    · next s2 heq =>
      injection h with hp
      injection hp with h1 h2
      rw [acquire_point_some_eq heq] at h1
      refine ⟨?_, ?_, ?_⟩
      · rw [← h1]
        simp
      · exact Or.inr ⟨_, _, _, by rw [← h1]; simp; all_goals rfl⟩
      · intro hb
        rw [← h2] at hb
        cases hb
  · -- line completed, new line odd
    split at h
    · simp at h
    · next s2 heq =>
      injection h with hp
      injection hp with h1 h2
      rw [acquire_point_reversed_some_eq heq] at h1
      refine ⟨?_, ?_, ?_⟩
      · rw [← h1]
        simp
      · exact Or.inr ⟨_, _, _, by rw [← h1]; simp; all_goals rfl⟩
      · intro hb
        rw [← h2] at hb
        cases hb
  · -- within an even line
    split at h
    · simp at h
    · next s2 heq =>
      injection h with hp
      injection hp with h1 h2
      rw [acquire_point_some_eq heq] at h1
      refine ⟨?_, ?_, ?_⟩
      · rw [← h1]
        simp
      · exact Or.inr ⟨_, _, _, by rw [← h1]; simp; all_goals rfl⟩
      · intro hb
        rw [← h2] at hb
        cases hb
  · -- within an odd line
    split at h
    · simp at h
    · next s2 heq =>
      injection h with hp
      injection hp with h1 h2
      rw [acquire_point_reversed_some_eq heq] at h1
      refine ⟨?_, ?_, ?_⟩
      · rw [← h1]
        simp
      · exact Or.inr ⟨_, _, _, by rw [← h1]; simp; all_goals rfl⟩
      · intro hb
        rw [← h2] at hb
        cases hb

/-- Branch analysis of a single successful `horizontal_scan` invocation. -/
theorem horizontal_scan_cases {cnt : Counter} {s s' : ScanState} {b : Bool}
    (h : horizontal_scan cnt s = some (s', b)) :
    s'.scan_iteration = s.scan_iteration + 1 ∧
    (s'.data = s.data ∨ ∃ r c v, s'.data = setEntryT s.data r c v) ∧
    (b = false → s'.data = s.data) := by
  obtain ⟨g1, g2, g3, g4, g5, g6, g7, g8, g9, g10⟩ := sbp_fields s
  rw [horizontal_scan] at h
  dsimp only at h
  split_ifs at h with hc1 hc2 hc3
  · -- first invocation
    split at h
    · simp at h
    · next s2 heq =>
      injection h with hp
      injection hp with h1 h2
      rw [acquire_point_some_eq heq] at h1
      refine ⟨?_, ?_, ?_⟩
      · rw [← h1]
        simp [g6]
      · exact Or.inr ⟨_, _, _, by rw [← h1]; simp [g3, g4, g5]; all_goals rfl⟩
      · intro hb
        rw [← h2] at hb
        cases hb
  · -- terminal invocation
    injection h with hp
    injection hp with h1 h2
    refine ⟨?_, ?_, ?_⟩
    · rw [← h1]
      simp [g6]
    · refine Or.inl ?_
      rw [← h1]
      simp [g5]
    · intro _
      rw [← h1]
      simp [g5]
  · -- line completed: fly-back, first point of the next line
    split at h
    · simp at h
    · next s2 heq =>
      injection h with hp
      injection hp with h1 h2
      rw [acquire_point_some_eq heq] at h1
      refine ⟨?_, ?_, ?_⟩
      · rw [← h1]
        simp
      · exact Or.inr ⟨_, _, _, by rw [← h1]; simp; all_goals rfl⟩
      · intro hb
        rw [← h2] at hb
        cases hb
  · -- within a line
    split at h
    · simp at h
    · next s2 heq =>
      injection h with hp
      injection hp with h1 h2
      rw [acquire_point_some_eq heq] at h1
      refine ⟨?_, ?_, ?_⟩
      · rw [← h1]
        simp
      · exact Or.inr ⟨_, _, _, by rw [← h1]; simp; all_goals rfl⟩
      · intro hb
        rw [← h2] at hb
        cases hb


theorem stepRun_iter (f : ScanState → Option (ScanState × Bool))
    (hf : ∀ s s' b, f s = some (s', b) → s'.scan_iteration = s.scan_iteration + 1) :
    ∀ k (s fin : ScanState), stepRun f k s = some fin →
      fin.scan_iteration = s.scan_iteration + k := by
  intro k
  induction k with
  | zero =>
    intro s fin h
    rw [stepRun] at h
    obtain rfl := Option.some_inj.mp h
    rfl
  | succ k ih =>
    intro s fin h
    rw [stepRun] at h
    split at h
    · simp at h
    · next s' b heq =>
      have h2 := ih _ _ h
      rw [h2, hf _ _ _ heq]
      omega

/-- The reverse-direction write of the snake scan: on an odd line, the sample
is stored at the mirrored column `n - 1 - (point % n)`, `n` being the row
count of the image buffer; every other cell is untouched. -/
theorem snake_scan_reversed_write {cnt : Counter} {n : ℕ} {s : ScanState}
    (hn : 0 < n) (hd : Dims n s.data) (hline : s.line < n)
    (c0 : ¬ s.scan_iteration = 0)
    (c1 : ¬ ((s.scan_iteration : ℚ) = (s.square_side / s.step) ^ 2))
    (c2 : ¬ ((s.point : ℤ) = pyInt (s.square_side / s.step)))
    (hodd : ¬ s.line % 2 = 0) :
    ∃ s' v, snake_scan cnt s = some (s', true) ∧
      s'.data = setEntryT s.data s.line (n - 1 - s.point % n) v ∧
      ∀ i j, (i ≠ s.line ∨ j ≠ n - 1 - s.point % n) →
        getEntry s'.data i j = getEntry s.data i j := by
  rw [snake_scan, if_neg c0, if_neg c1]
  simp only [if_neg c2, if_neg hodd]
  have hdA : Dims n (move_scanner_xyz (-s.step) 0 0 s).data := by
    rw [move_xyz_data]; exact hd
  have hlA : (move_scanner_xyz (-s.step) 0 0 s).line < n := by
    rw [move_xyz_line]; exact hline
  rw [acquire_point_reversed_eq hdA hn hlA]
  refine ⟨_, _, rfl, rfl, ?_⟩
  intro i j hij
  exact getEntry_setEntryT_ne _ hij

/-- The line-change ("fly-back") branch of the horizontal scan: a `+step`
vertical move, then a single negative-x move whose magnitude is the raw point
count `int(square_side/step)` (not scaled by the step size), then the first
acquisition of the next line, at column 0. -/
theorem horizontal_scan_flyback {cnt : Counter} {n : ℕ} {s : ScanState}
    (hn : 0 < n) (hd : Dims n s.data) (hline : s.line + 1 < n)
    (c0 : ¬ s.scan_iteration = 0)
    (c1 : ¬ ((s.scan_iteration : ℚ) = (s.square_side / s.step) ^ 2 - 1))
    (c2 : (s.point : ℤ) = pyInt (s.square_side / s.step) - 1) :
    ∃ s' v, horizontal_scan cnt s = some (s', true) ∧
      s'.events = s.events ++ [Ev.move 0 s.step 0,
        Ev.move (-(pyInt (s.square_side / s.step) : ℚ)) 0 0, Ev.acq v] ∧
      s'.data = setEntryT s.data (s.line + 1) 0 v ∧
      s'.x = s.x - (pyInt (s.square_side / s.step) : ℚ) ∧
      s'.y = s.y + s.step ∧ v = cnt s.samples s'.x s'.y := by
  rw [horizontal_scan, if_neg c0, if_neg c1]
  simp only [if_pos c2, move_xyz_line, move_xyz_point, move_xyz_data,
    move_xyz_samples, move_xyz_x, move_xyz_y, move_xyz_step, move_xyz_side,
    move_xyz_iter, move_xyz_centerings, move_xyz_events]
  simp only [acquire_point, setEntry?]
  have hcond : s.line + 1 < s.data.length ∧
      0 < (s.data.getD (s.line + 1) []).length := by
    constructor
    · rw [hd.1]
      exact hline
    · rw [getD_row_eq hd hline]
      omega
  rw [if_pos hcond]
  refine ⟨_, _, rfl, ?_, rfl, ?_, ?_, rfl⟩
  · simp [List.append_assoc]
  · push_cast
    ring
  · push_cast
    ring

/-- Invocation 0 of the horizontal scan from a freshly initialised state. -/
theorem horizontal_scan_first {cnt : Counter} {n : ℕ} {st : ℚ} (hn : 0 < n)
    (s : ScanState) (h1 : s.step = st) (h2 : s.square_side = (n : ℚ) * st)
    (h3 : s.scan_iteration = 0) (h4 : s.point = 0) (h5 : s.line = 0)
    (h6 : s.samples = 0) (h7 : s.data = zeros n) :
    ∃ s', horizontal_scan cnt s = some (s', true) ∧ s'.scan_iteration = 1 ∧
      s'.point = 1 ∧ s'.step = st ∧ s'.square_side = (n : ℚ) * st ∧
      s'.samples = 1 ∧ Dims n s'.data ∧ s'.line = 0 := by
  rw [horizontal_scan, if_pos h3]
  obtain ⟨g1, g2, g3, g4, g5, g6, g7, g8, g9, g10⟩ := sbp_fields s
  set s1 := set_scan_begin_position s with hs1
  have hd : Dims n s1.data := by rw [g5, h7]; exact dims_zeros n
  have hline : s1.line < n := by rw [g4, h5]; exact hn
  have hpoint : s1.point < n := by rw [g3, h4]; exact hn
  simp only [acquire_point_eq hd hline hpoint]
  refine ⟨_, rfl, ?_, ?_, ?_, ?_, ?_, ?_, ?_⟩
  · simpa using by rw [g6, h3]
  · simpa using by rw [g3, h4]
  · simpa using g1.trans h1
  · simpa using g2.trans h2
  · simpa using by rw [g9, h6]
  · show Dims n (setEntryT s1.data s1.line s1.point (cnt s1.samples s1.x s1.y))
    exact dims_setEntryT hd _ _ _
  · simpa using by rw [g4, h5]

/-- Invocation 1 of the horizontal scan over a 1-point region raises an
IndexError: the termination test `scan_iteration == (side/step)**2 - 1 = 0`
can never fire after the first invocation, the line-completed test
`point == int(side/step) - 1 = 0` fails with `point = 1`, and the acquisition
then writes `data[0, 2]` in a `1 × 1` buffer. -/
theorem horizontal_scan_n1_crash {cnt : Counter} {st : ℚ} (hst : st ≠ 0)
    {s : ScanState} (h1 : s.step = st) (h2 : s.square_side = (1 : ℚ) * st)
    (h3 : s.scan_iteration = 1) (h4 : s.point = 1) (hd : Dims 1 s.data) :
    horizontal_scan cnt s = none := by
  have hr : s.square_side / s.step = ((1 : ℕ) : ℚ) := by
    rw [h1, h2, show ((1 : ℚ)) = ((1 : ℕ) : ℚ) by norm_num, ratio_cancel hst]
  have c1 : ¬ ((s.scan_iteration : ℚ) = (s.square_side / s.step) ^ 2 - 1) := by
    rw [h3, hr]
    norm_num
  have c2 : ¬ ((s.point : ℤ) = pyInt (s.square_side / s.step) - 1) := by
    rw [h4, hr, pyInt_natCast]
    norm_num
  rw [horizontal_scan, if_neg (by rw [h3]; omega), if_neg c1]
  simp only [if_neg c2, move_xyz_line, move_xyz_point, move_xyz_data,
    move_xyz_samples, move_xyz_x, move_xyz_y, move_xyz_step, move_xyz_side,
    move_xyz_iter, move_xyz_centerings, move_xyz_events]
  simp only [acquire_point, setEntry?]
  have hrow : (s.data.getD s.line []).length ≤ 1 := by
    rcases Nat.lt_or_ge s.line 1 with hl | hl
    · rw [getD_row_eq hd hl]
    · rw [List.getD_eq_getElem?_getD, List.getElem?_eq_none (by rw [hd.1]; exact hl)]
      simp
  rw [if_neg (by rintro ⟨hA, hB⟩; rw [h4] at hB; omega)]

theorem centeringSteps_half_bound {n : ℕ} {st : ℚ} (hst : st ≠ 0) :
    (n : ℚ) ≤ 2 * (centeringSteps st ((n : ℚ) * st) : ℚ) := by
  unfold centeringSteps
  have e : ((n : ℚ) * st / 2) / st = (n : ℚ) / 2 := by
    field_simp
    ring
  rw [e, ratCeil_eq_intCeil]
  have h1 : ((n : ℚ) / 2) ≤ (⌈(n : ℚ) / 2⌉ : ℚ) := Int.le_ceil _
  have h2 : (0 : ℤ) ≤ ⌈(n : ℚ) / 2⌉ := Int.ceil_nonneg (by positivity)
  have h3 : ((⌈(n : ℚ) / 2⌉.toNat : ℕ) : ℚ) = ((⌈(n : ℚ) / 2⌉ : ℤ) : ℚ) := by
    exact_mod_cast congrArg (fun z : ℤ => (z : ℚ)) (Int.toNat_of_nonneg h2)
  rw [h3]
  linarith


/-! Concrete fake drivers used in witnesses and counterexamples. -/

/-- A deterministic fake counter returning `100 + sample index`, so that every
returned value is nonzero. -/
def cnt100 : Counter := fun k _ _ => (k : ℤ) + 100

/-- A deterministic fake counter encoding the stage x position (its numerator;
positions in the runs below are integers). -/
def cntPos : Counter := fun _ x _ => x.num

theorem initState_data {n : ℕ} {st : ℚ} (hst : st ≠ 0) :
    (initState st ((n : ℚ) * st)).data = zeros n :=
  init_scan_data hst _

/-- C2: the snake invariant fails for the horizontal mode: a completed
horizontal scan over an `n × n` region (`n ≥ 2`) performs only `n² - 1`
acquisitions and never writes cell `(0, 1)` of the image buffer, which stays
at its zero initial value no matter what the counter returns. -/
theorem claim_C2 (cnt : Counter) (n : ℕ) (st : ℚ) (hn : 2 ≤ n) (hst : st ≠ 0) :
    ∃ fin, driveHorizontal cnt (n ^ 2) (initState st ((n : ℚ) * st)) = some fin ∧
      fin.samples = n ^ 2 - 1 ∧ n ^ 2 - 1 < n ^ 2 ∧
      getEntry fin.data 0 1 = 0 := by
  obtain ⟨fin, he, hf⟩ := horizontal_complete hn hst
    (initState st ((n : ℚ) * st)) rfl rfl rfl rfl rfl rfl (initState_data hst)
  have hsq : 4 ≤ n ^ 2 := by
    have h := Nat.mul_le_mul hn hn
    calc 4 = 2 * 2 := rfl
      _ ≤ n * n := h
      _ = n ^ 2 := by ring
  exact ⟨fin, he, hf.hsamp, by omega, hf.hgap⟩

/-- C2, instantiated: a 2 × 2 horizontal scan acquires 3 points and leaves
cell (0, 1) at zero although the fake counter only returns values ≥ 100. -/
theorem claim_C2_witness :
    ∃ fin, driveHorizontal cnt100 (2 ^ 2) (initState 1 (((2 : ℕ) : ℚ) * 1))
        = some fin ∧
      fin.samples = 2 ^ 2 - 1 ∧ 2 ^ 2 - 1 < 2 ^ 2 ∧ getEntry fin.data 0 1 = 0 :=
  claim_C2 cnt100 2 1 (by omega) (by norm_num)

/-- C3 counterexample: the claim "both modes emit n² + 2 actions" fails for
the horizontal mode already at n = 2: one centering-in, 3 acquisitions and
one centering-out, i.e. 5 actions rather than 2² + 2 = 6. -/
theorem claim_C3_counterexample :
    (driveHorizontal cnt100 (2 ^ 2) (initState 1 (((2 : ℕ) : ℚ) * 1))).map
      (fun fin => fin.centerings + fin.samples) = some 5 ∧ 5 ≠ 2 ^ 2 + 2 := by
  obtain ⟨fin, he, hf⟩ := @horizontal_complete cnt100 2 1 (by omega)
    (by norm_num) (initState 1 (((2 : ℕ) : ℚ) * 1)) rfl rfl rfl rfl rfl rfl
    (initState_data (by norm_num))
  refine ⟨?_, by omega⟩
  rw [he]
  have hc : fin.centerings = 2 := hf.hcent
  have hs : fin.samples = 3 := hf.hsamp
  rw [Option.map_some', hc, hs]

/-- C3 amended: the snake mode emits exactly n² + 2 actions (one centering-in
batch, n² acquisitions, one centering-out batch); the horizontal mode emits
only n² + 1 actions for n ≥ 2 (its terminal test fires one iteration early,
so one acquisition is missing). -/
theorem claim_C3_amended :
    (∀ (cnt : Counter) (n : ℕ) (st : ℚ), 1 ≤ n → st ≠ 0 →
      ∃ fin, driveSnake cnt (n ^ 2 + 1) (initState st ((n : ℚ) * st))
          = some fin ∧
        fin.centerings + fin.samples = n ^ 2 + 2) ∧
    (∀ (cnt : Counter) (n : ℕ) (st : ℚ), 2 ≤ n → st ≠ 0 →
      ∃ fin, driveHorizontal cnt (n ^ 2) (initState st ((n : ℚ) * st))
          = some fin ∧
        fin.centerings + fin.samples = n ^ 2 + 1) := by
  constructor
  · intro cnt n st hn hst
    obtain ⟨fin, he, hf⟩ := snake_complete (by omega) hst
      (initState st ((n : ℚ) * st)) rfl rfl rfl rfl rfl rfl (initState_data hst)
    refine ⟨fin, he, ?_⟩
    have hc : fin.centerings = 2 := hf.hcent
    rw [hc, hf.hsamp]
    omega
  · intro cnt n st hn hst
    obtain ⟨fin, he, hf⟩ := horizontal_complete hn hst
      (initState st ((n : ℚ) * st)) rfl rfl rfl rfl rfl rfl (initState_data hst)
    refine ⟨fin, he, ?_⟩
    have hc : fin.centerings = 2 := hf.hcent
    have hsq : 4 ≤ n ^ 2 := by
      have h := Nat.mul_le_mul hn hn
      calc 4 = 2 * 2 := rfl
        _ ≤ n * n := h
        _ = n ^ 2 := by ring
    rw [hc, hf.hsamp]
    omega

/-- C3 amended, instantiated at n = 2, step = 1. -/
theorem claim_C3_witness :
    (∃ fin, driveSnake cnt100 (2 ^ 2 + 1) (initState 1 (((2 : ℕ) : ℚ) * 1))
        = some fin ∧ fin.centerings + fin.samples = 2 ^ 2 + 2) ∧
    (∃ fin, driveHorizontal cnt100 (2 ^ 2) (initState 1 (((2 : ℕ) : ℚ) * 1))
        = some fin ∧ fin.centerings + fin.samples = 2 ^ 2 + 1) :=
  ⟨claim_C3_amended.1 cnt100 2 1 (by omega) (by norm_num),
   claim_C3_amended.2 cnt100 2 1 (by omega) (by norm_num)⟩

/-- C5: at termination the code calls `set_scan_begin_position` again, which
repeats the same negative centering moves instead of reversing them, so the
stage is never parked back at the region centre: starting the scan from the
centre `(0, 0)`, the final stage y position is strictly negative. -/
theorem claim_C5 (cnt : Counter) (n : ℕ) (st : ℚ) (hn : 1 ≤ n) (hst : 0 < st) :
    ∃ fin, driveSnake cnt (n ^ 2 + 1) (initState st ((n : ℚ) * st)) = some fin ∧
      fin.samples = n ^ 2 ∧ fin.y < 0 := by
  have hst' : st ≠ 0 := ne_of_gt hst
  obtain ⟨fin, he, hf⟩ := snake_complete (by omega) hst'
    (initState st ((n : ℚ) * st)) rfl rfl rfl rfl rfl rfl (initState_data hst')
  refine ⟨fin, he, hf.hsamp, ?_⟩
  have hy : fin.y = (0 : ℚ) - 2 * (centeringSteps st ((n : ℚ) * st) : ℚ) * st
      + ((n - 1 : ℕ) : ℚ) * st := hf.hy
  have hb := centeringSteps_half_bound (n := n) hst'
  have hcast : ((n - 1 : ℕ) : ℚ) = (n : ℚ) - 1 := by
    push_cast [Nat.cast_sub hn]
    ring
  have hcoef : (n : ℚ) - 1 - 2 * (centeringSteps st ((n : ℚ) * st) : ℚ) < 0 := by
    linarith
  calc fin.y = ((n : ℚ) - 1 - 2 * (centeringSteps st ((n : ℚ) * st) : ℚ)) * st := by
        rw [hy, hcast]
        ring
    _ < 0 := mul_neg_of_neg_of_pos hcoef hst

/-- C5, instantiated at n = 4, step = 1: the stage ends the scan below the
region centre. -/
theorem claim_C5_witness :
    ∃ fin, driveSnake cnt100 (4 ^ 2 + 1) (initState 1 (((4 : ℕ) : ℚ) * 1))
        = some fin ∧ fin.samples = 4 ^ 2 ∧ fin.y < 0 :=
  claim_C5 cnt100 4 1 (by omega) (by norm_num)

/-- C9: every invocation of `snake_scan` or `horizontal_scan` that returns
(raises no IndexError) increments `scan_iteration` by exactly one, in every
branch including the terminal centering-out branch; hence `k` invocations
after `initialize_scan` leave `scan_iteration = k`. -/
theorem claim_C9 :
    (∀ (cnt : Counter) (s s' : ScanState) (b : Bool),
      snake_scan cnt s = some (s', b) →
      s'.scan_iteration = s.scan_iteration + 1) ∧
    (∀ (cnt : Counter) (s s' : ScanState) (b : Bool),
      horizontal_scan cnt s = some (s', b) →
      s'.scan_iteration = s.scan_iteration + 1) ∧
    (∀ (cnt : Counter) (st side : ℚ) (k : ℕ) (s0 fin : ScanState),
      stepRun (snake_scan cnt) k (init_scan st side s0) = some fin →
      fin.scan_iteration = k) ∧
    (∀ (cnt : Counter) (st side : ℚ) (k : ℕ) (s0 fin : ScanState),
      stepRun (horizontal_scan cnt) k (init_scan st side s0) = some fin →
      fin.scan_iteration = k) := by
  refine ⟨fun cnt s s' b h => (snake_scan_cases h).1,
    fun cnt s s' b h => (horizontal_scan_cases h).1, ?_, ?_⟩
  · intro cnt st side k s0 fin h
    have hit := stepRun_iter (snake_scan cnt)
      (fun s s' b hh => (snake_scan_cases hh).1) k (init_scan st side s0) fin h
    have h0 : (init_scan st side s0).scan_iteration = 0 := rfl
    rw [hit, h0, Nat.zero_add]
  · intro cnt st side k s0 fin h
    have hit := stepRun_iter (horizontal_scan cnt)
      (fun s s' b hh => (horizontal_scan_cases hh).1) k (init_scan st side s0) fin h
    have h0 : (init_scan st side s0).scan_iteration = 0 := rfl
    rw [hit, h0, Nat.zero_add]

/-- C9, instantiated: one snake invocation after initialisation leaves
`scan_iteration = 1`. -/
theorem claim_C9_witness :
    (stepRun (snake_scan cnt100) 1 (initState 1 (((1 : ℕ) : ℚ) * 1))).map
      (fun fin => fin.scan_iteration) = some 1 := by
  obtain ⟨s1, he, _⟩ := @snake_scan_base cnt100 1 1 (by omega)
    (initState 1 (((1 : ℕ) : ℚ) * 1)) rfl rfl rfl rfl rfl rfl
    (initState_data (by norm_num))
  have hrun : stepRun (snake_scan cnt100) 1 (initState 1 (((1 : ℕ) : ℚ) * 1))
      = some s1 := by
    have h1 : stepRun (snake_scan cnt100) 1 (initState 1 (((1 : ℕ) : ℚ) * 1))
        = match snake_scan cnt100 (initState 1 (((1 : ℕ) : ℚ) * 1)) with
          | none => none
          | some (s2, _) => stepRun (snake_scan cnt100) 0 s2 := rfl
    rw [h1, he]
    rfl
  rw [hrun, Option.map_some']
  exact congrArg some (claim_C9.2.2.1 cnt100 1 (((1 : ℕ) : ℚ) * 1) 1 _ s1 hrun)

/-- C10: every successful invocation of either scan method writes at most one
element of the image buffer, leaving all other elements unchanged, and the
terminal invocation (the one that does not re-emit the continue signal, i.e.
returns the flag `false`) writes none. -/
theorem claim_C10 :
    (∀ (cnt : Counter) (s s' : ScanState) (b : Bool),
      snake_scan cnt s = some (s', b) →
      (∃ r c, ∀ i j, (i ≠ r ∨ j ≠ c) →
        getEntry s'.data i j = getEntry s.data i j) ∧
      (b = false → s'.data = s.data)) ∧
    (∀ (cnt : Counter) (s s' : ScanState) (b : Bool),
      horizontal_scan cnt s = some (s', b) →
      (∃ r c, ∀ i j, (i ≠ r ∨ j ≠ c) →
        getEntry s'.data i j = getEntry s.data i j) ∧
      (b = false → s'.data = s.data)) := by
  constructor
  · intro cnt s s' b h
    obtain ⟨_, hframe, hterm⟩ := snake_scan_cases h
    refine ⟨?_, hterm⟩
    rcases hframe with hsame | ⟨r, c, v, hv⟩
    · exact ⟨0, 0, fun i j _ => by rw [hsame]⟩
    · exact ⟨r, c, fun i j hij => by rw [hv]; exact getEntry_setEntryT_ne _ hij⟩
  · intro cnt s s' b h
    obtain ⟨_, hframe, hterm⟩ := horizontal_scan_cases h
    refine ⟨?_, hterm⟩
    rcases hframe with hsame | ⟨r, c, v, hv⟩
    · exact ⟨0, 0, fun i j _ => by rw [hsame]⟩
    · exact ⟨r, c, fun i j hij => by rw [hv]; exact getEntry_setEntryT_ne _ hij⟩

/-- C10, instantiated on the first invocation of a 1 × 1 snake scan. -/
theorem claim_C10_witness :
    (snake_scan cnt100 (initState 1 (((1 : ℕ) : ℚ) * 1))).elim False
      (fun p => ∃ r c, ∀ i j, (i ≠ r ∨ j ≠ c) →
        getEntry p.1.data i j
          = getEntry (initState 1 (((1 : ℕ) : ℚ) * 1)).data i j) := by
  obtain ⟨s1, he, _⟩ := @snake_scan_base cnt100 1 1 (by omega)
    (initState 1 (((1 : ℕ) : ℚ) * 1)) rfl rfl rfl rfl rfl rfl
    (initState_data (by norm_num))
  rw [he]
  exact (claim_C10.1 cnt100 _ s1 true he).1


/-- A mid-scan state on an odd (right-to-left) line of a 2 × 2 snake scan:
step 1, side 2, line 1, point 0, after 3 iterations and 2 acquisitions. -/
def sC1 : ScanState :=
  { step := 1, square_side := 2, point := 0, line := 1,
    data := [[100, 101], [0, 0]], scan_iteration := 3, x := 0, y := 0, z := 0,
    samples := 2, centerings := 1, events := [] }

/-- C1: on an odd (right-to-left) line, `acquire_point_reversed` writes the
sample at column `n - 1 - (point mod n)` of the current row (first part), and
consequently a completed snake scan stores at cell `(i, j)` the value sampled
at the spatial position whose x offset from the scan origin grows with `j`:
true left-to-right order on every line regardless of scan direction (second
part). -/
theorem claim_C1 :
    (∀ (cnt : Counter) (n : ℕ) (s : ScanState), 0 < n → Dims n s.data →
      s.line < n → ¬ s.scan_iteration = 0 →
      ¬ ((s.scan_iteration : ℚ) = (s.square_side / s.step) ^ 2) →
      ¬ ((s.point : ℤ) = pyInt (s.square_side / s.step)) →
      ¬ s.line % 2 = 0 →
      ∃ s' v, snake_scan cnt s = some (s', true) ∧
        s'.data = setEntryT s.data s.line (n - 1 - s.point % n) v) ∧
    (∀ (f : ℚ → ℚ → ℤ) (n : ℕ) (st : ℚ), 0 < n → st ≠ 0 →
      ∃ fin, driveSnake (fun _ x y => f x y) (n ^ 2 + 1)
          (initState st ((n : ℚ) * st)) = some fin ∧
        ∀ i j, i < n → j < n →
          getEntry fin.data i j
            = f (((j : ℚ) - (centeringSteps st ((n : ℚ) * st) : ℚ)) * st)
                (((i : ℚ) - (centeringSteps st ((n : ℚ) * st) : ℚ)) * st)) := by
  constructor
  · intro cnt n s hn hd hline c0 c1 c2 hodd
    obtain ⟨s', v, he, hdata, _⟩ :=
      snake_scan_reversed_write hn hd hline c0 c1 c2 hodd
    exact ⟨s', v, he, hdata⟩
  · intro f n st hn hst
    obtain ⟨fin, he, hf⟩ := @snake_complete (fun _ x y => f x y) n st hn hst
      (initState st ((n : ℚ) * st)) rfl rfl rfl rfl rfl rfl (initState_data hst)
    refine ⟨fin, he, ?_⟩
    intro i j hi hj
    have hd0 : fin.data = snakeDataK (fun _ x y => f x y) n st 0 0 (n ^ 2) :=
      hf.hdata
    rw [hd0, getEntry_snakeDataK _ n st 0 0 hn (n ^ 2) (le_refl _) i j hi hj,
      if_pos (snakeIdx_lt hi hj)]
    have hrow : snakeIdx n i j / n = i := by
      have h := snakeRow_idx (i := i) hn hj
      simpa [snakeRow] using h
    have hcol : snakeCol n (snakeIdx n i j) = j := snakeCol_idx hn hj
    simp only [snakeVal, hcol, hrow]
    congr 1 <;> ring

/-- C1, instantiated: the reversed write at `sC1` (line 1, point 0 of a 2 × 2
scan) lands at column 1, and a completed 1 × 1 scan with a constant counter
stores that constant. -/
theorem claim_C1_witness :
    (∃ s' v, snake_scan cnt100 sC1 = some (s', true) ∧
      s'.data = setEntryT sC1.data sC1.line (2 - 1 - sC1.point % 2) v) ∧
    (∃ fin, driveSnake (fun _ _ _ => (5 : ℤ)) (1 ^ 2 + 1)
        (initState 1 (((1 : ℕ) : ℚ) * 1)) = some fin ∧
      ∀ i j, i < 1 → j < 1 → getEntry fin.data i j = 5) := by
  constructor
  · refine claim_C1.1 cnt100 2 sC1 (by omega) ⟨rfl, by decide⟩ (by decide)
      (by decide) ?_ ?_ (by decide)
    · show ¬ (((3 : ℕ) : ℚ) = ((2 : ℚ) / 1) ^ 2)
      norm_num
    · show ¬ (((0 : ℕ) : ℤ) = pyInt ((2 : ℚ) / 1))
      rw [show (2 : ℚ) / 1 = ((2 : ℕ) : ℚ) by norm_num, pyInt_natCast]
      norm_num
  · exact claim_C1.2 (fun _ _ => 5) 1 1 (by omega) (by norm_num)

/-- A mid-scan horizontal state at the end of line 0 of a 2 × 2 scan (step 2,
side 4): point 1 = pyInt(side/step) - 1, one sample taken, stage at (-2, -2). -/
def c4state : ScanState :=
  { step := 2, square_side := 4, point := 1, line := 0,
    data := [[100, 0], [0, 0]], scan_iteration := 1, x := -2, y := -2, z := 0,
    samples := 1, centerings := 1, events := [] }

/-- C4 counterexample: at `c4state` (n = 2, step s = 2) the fly-back emits
`move(0, +2, 0)` then `move(-2, 0, 0)`: the negative-x magnitude is the raw
point count `int(side/step) = 2`, not `n * s = 4` step units as claimed, so
the move -2 differs from -(n * s) = -4. -/
theorem claim_C4_counterexample :
    ((horizontal_scan cnt100 c4state).map (fun p => p.1.events))
      = some [Ev.move 0 2 0, Ev.move (-2) 0 0, Ev.acq 101] ∧
    ((-2 : ℚ)) ≠ -((2 : ℚ) * 2) := by
  have hside : c4state.square_side / c4state.step = ((2 : ℕ) : ℚ) := by
    show (4 : ℚ) / 2 = ((2 : ℕ) : ℚ)
    norm_num
  obtain ⟨s', v, he, hev, _, _, _, hv⟩ := @horizontal_scan_flyback cnt100 2 c4state (by omega) ⟨rfl, by decide⟩
    (by decide)
    (by decide)
    (by
      show ¬ (((1 : ℕ) : ℚ) = ((4 : ℚ) / 2) ^ 2 - 1)
      norm_num)
    (by
      show ((1 : ℕ) : ℤ) = pyInt (c4state.square_side / c4state.step) - 1
      rw [hside, pyInt_natCast]
      norm_num)
  refine ⟨?_, by norm_num⟩
  rw [he, Option.map_some']
  have hv101 : v = 101 := by
    rw [hv]
    show ((1 : ℕ) : ℤ) + 100 = 101
    decide
  have h2 : (-(pyInt (c4state.square_side / c4state.step) : ℚ)) = -2 := by
    rw [hside, pyInt_natCast]
    push_cast
    norm_num
  rw [hev, hv101, h2]
  rfl

/-- C4 amended: after a completed line the fly-back is `move(0, +step, 0)`
followed by `move(-int(side/step), 0, 0)` and the first acquisition of the
next line: the negative-x magnitude is the dimensionless point count
`int(side/step)`, not `n * step`. -/
theorem claim_C4_amended (cnt : Counter) (n : ℕ) (s : ScanState)
    (hn : 0 < n) (hd : Dims n s.data) (hline : s.line + 1 < n)
    (c0 : ¬ s.scan_iteration = 0)
    (c1 : ¬ ((s.scan_iteration : ℚ) = (s.square_side / s.step) ^ 2 - 1))
    (c2 : (s.point : ℤ) = pyInt (s.square_side / s.step) - 1) :
    ∃ s' v, horizontal_scan cnt s = some (s', true) ∧
      s'.events = s.events ++ [Ev.move 0 s.step 0,
        Ev.move (-(pyInt (s.square_side / s.step) : ℚ)) 0 0, Ev.acq v] ∧
      s'.data = setEntryT s.data (s.line + 1) 0 v ∧
      s'.x = s.x - (pyInt (s.square_side / s.step) : ℚ) ∧
      s'.y = s.y + s.step := by
  obtain ⟨s', v, he, hev, hdata, hx, hy, _⟩ :=
    horizontal_scan_flyback hn hd hline c0 c1 c2
  exact ⟨s', v, he, hev, hdata, hx, hy⟩

/-- C4 amended, instantiated at `c4state`. -/
theorem claim_C4_witness :
    ∃ s' v, horizontal_scan cnt100 c4state = some (s', true) ∧
      s'.events = c4state.events ++ [Ev.move 0 c4state.step 0,
        Ev.move (-(pyInt (c4state.square_side / c4state.step) : ℚ)) 0 0,
        Ev.acq v] ∧
      s'.data = setEntryT c4state.data (c4state.line + 1) 0 v ∧
      s'.x = c4state.x - (pyInt (c4state.square_side / c4state.step) : ℚ) ∧
      s'.y = c4state.y + c4state.step :=
  claim_C4_amended cnt100 2 c4state (by omega) ⟨rfl, by decide⟩ (by decide)
    (by decide)
    (by
      show ¬ (((1 : ℕ) : ℚ) = ((4 : ℚ) / 2) ^ 2 - 1)
      norm_num)
    (by
      show ((1 : ℕ) : ℤ) = pyInt ((4 : ℚ) / 2) - 1
      rw [show (4 : ℚ) / 2 = ((2 : ℕ) : ℚ) by norm_num, pyInt_natCast]
      norm_num)


/-- C8: for step = side (n = 1) the snake mode indeed acquires exactly one
sample between the two centering batches, but the horizontal mode crashes on
its second invocation: iteration 1 has point = 1 = int(side/step), the
fly-back test `point == int(side/step) - 1` fails, and the raster branch
attempts the out-of-range write `data[0, 2]` on the 1 × 1 buffer
(an IndexError, modeled as `none`), so no single-pixel image is produced. -/
theorem claim_C8 (cnt : Counter) (st : ℚ) (hst : st ≠ 0) :
    (∃ fin, driveSnake cnt (1 ^ 2 + 1) (initState st (((1 : ℕ) : ℚ) * st))
        = some fin ∧ fin.samples = 1 ∧ fin.centerings = 2) ∧
    stepRun (horizontal_scan cnt) 2 (initState st (((1 : ℕ) : ℚ) * st))
      = none := by
  constructor
  · obtain ⟨fin, he, hf⟩ := snake_complete (n := 1) (by omega) hst
      (initState st (((1 : ℕ) : ℚ) * st)) rfl rfl rfl rfl rfl rfl
      (initState_data hst)
    exact ⟨fin, he, hf.hsamp, hf.hcent⟩
  · obtain ⟨s1, he1, hi1, hp1, hstep1, hside1, hsamp1, hd1, hline1⟩ :=
      @horizontal_scan_first cnt 1 st (by omega)
        (initState st (((1 : ℕ) : ℚ) * st)) rfl rfl rfl rfl rfl rfl
        (initState_data hst)
    have h2' : s1.square_side = (1 : ℚ) * st := by
      rw [hside1]
      norm_num
    have he2 : horizontal_scan cnt s1 = none :=
      horizontal_scan_n1_crash hst hstep1 h2' hi1 hp1 hd1
    have hu : stepRun (horizontal_scan cnt) 2
          (initState st (((1 : ℕ) : ℚ) * st))
        = match horizontal_scan cnt (initState st (((1 : ℕ) : ℚ) * st)) with
          | none => none
          | some (s2, _) => stepRun (horizontal_scan cnt) 1 s2 := rfl
    rw [hu, he1]
    show stepRun (horizontal_scan cnt) 1 s1 = none
    have hu2 : stepRun (horizontal_scan cnt) 1 s1
        = match horizontal_scan cnt s1 with
          | none => none
          | some (s2, _) => stepRun (horizontal_scan cnt) 0 s2 := rfl
    rw [hu2, he2]

/-- C8, instantiated at step = side = 1. -/
theorem claim_C8_witness :
    (∃ fin, driveSnake cnt100 (1 ^ 2 + 1) (initState 1 (((1 : ℕ) : ℚ) * 1))
        = some fin ∧ fin.samples = 1 ∧ fin.centerings = 2) ∧
    stepRun (horizontal_scan cnt100) 2 (initState 1 (((1 : ℕ) : ℚ) * 1))
      = none :=
  claim_C8 cnt100 1 (by norm_num)


theorem centeringSteps_one_one : centeringSteps 1 (((1 : ℕ) : ℚ) * 1) = 1 := by
  unfold centeringSteps
  rw [ratCeil_eq_intCeil]
  have e : ((((1 : ℕ) : ℚ) * 1) / 2) / 1 = 1 / 2 := by norm_num
  rw [e]
  have h1 : ⌈(1 / 2 : ℚ)⌉ ≤ 1 := Int.ceil_le.mpr (by norm_num)
  have h2 : (0 : ℤ) < ⌈(1 / 2 : ℚ)⌉ := Int.lt_ceil.mpr (by norm_num)
  omega

theorem snake_n1_cntPos (s : ScanState) (h1 : s.step = 1)
    (h2 : s.square_side = ((1 : ℕ) : ℚ) * 1) (h3 : s.scan_iteration = 0)
    (h4 : s.point = 0) (h5 : s.line = 0) (h6 : s.samples = 0)
    (h7 : s.data = zeros 1) :
    ∃ fin, driveSnake cntPos (1 ^ 2 + 1) s = some fin ∧
      getEntry fin.data 0 0 = (s.x - 1).num ∧
      fin.x = s.x - 2 ∧ fin.y = s.y - 2 := by
  obtain ⟨fin, he, hf⟩ := @snake_complete cntPos 1 1 (by omega)
    (by norm_num) s h1 h2 h3 h4 h5 h6 h7
  refine ⟨fin, he, ?_, ?_, ?_⟩
  · rw [hf.hdata,
      getEntry_snakeDataK cntPos 1 1 s.x s.y (by omega) (1 ^ 2) (le_refl _)
        0 0 (by omega) (by omega),
      if_pos (show snakeIdx 1 0 0 < 1 ^ 2 by decide)]
    have hidx : snakeIdx 1 0 0 = 0 := by decide
    rw [hidx]
    simp only [snakeVal]
    have hcol : snakeCol 1 0 = 0 := by decide
    rw [hcol, centeringSteps_one_one]
    show (s.x - ((1 : ℕ) : ℚ) * 1 + ((0 : ℕ) : ℚ) * 1).num = (s.x - 1).num
    congr 1
    push_cast
    ring
  · rw [hf.hx, centeringSteps_one_one]
    norm_num
  · rw [hf.hy, centeringSteps_one_one]
    norm_num

theorem lines_one_cntPos (S : ScanState) :
    Interfuse.lines cntPos 1 0 1 S
      = move_scanner_xyz 0 (Interfuse.fwdLine cntPos 0 0 1 S).step 0
          (Interfuse.fwdLine cntPos 0 0 1 S) := rfl

theorem fwdLine_one_cntPos (S : ScanState) :
    Interfuse.fwdLine cntPos 0 0 1 S
      = { S with x := S.x + S.step, y := S.y + 0, z := S.z + 0,
                 data := setEntryT S.data 0 0
                   (cntPos S.samples (S.x + S.step) (S.y + 0)),
                 samples := S.samples + 1,
                 events := S.events ++ [Ev.move S.step 0 0]
                   ++ [Ev.acq (cntPos S.samples (S.x + S.step) (S.y + 0))] }
      := rfl

theorem fuse_cntPos_n1 :
    getEntry (Interfuse.snake_scan cntPos 1 (((1 : ℕ) : ℚ) * 1)
      (initState 1 (((1 : ℕ) : ℚ) * 1))).data 0 0 = 1 := by
  have hspn : ((npRound ((((1 : ℕ) : ℚ) * 1) / 1)).toNat) = 1 := by
    rw [ratio_cancel (by norm_num) 1, npRound_natCast, Int.toNat_natCast]
  rw [Interfuse.snake_scan, Interfuse.create_map]
  simp only [hspn]
  rw [lines_one_cntPos, fwdLine_one_cntPos, move_xyz_data]
  show getEntry (setEntryT (zeros 1) 0 0
    (cntPos 0 ((0 : ℚ) + 1) ((0 : ℚ) + 0))) 0 0 = 1
  rw [getEntry_setEntryT_self _ (by simp [zeros]) (by simp [zeros])]
  show ((0 : ℚ) + 1).num = 1
  norm_num

/-- C6 counterexample: with the position-dependent counter `cntPos` (count =
numerator of the stage x coordinate) at n = 1, step = 1, the trampoline
`snake_scan` samples after centering in (x = -1, entry -1), while the
interfuse `snake_scan` never centers (its centering calls are commented out)
and samples after one `+step` move (x = +1, entry 1): the buffers differ. -/
theorem claim_C6_counterexample :
    (driveSnake cntPos (1 ^ 2 + 1) (initState 1 (((1 : ℕ) : ℚ) * 1))).map
      (fun fin => getEntry fin.data 0 0) = some (-1) ∧
    getEntry (Interfuse.snake_scan cntPos 1 (((1 : ℕ) : ℚ) * 1)
      (initState 1 (((1 : ℕ) : ℚ) * 1))).data 0 0 = 1 ∧
    (-1 : ℤ) ≠ 1 := by
  obtain ⟨fin, he, hent, _, _⟩ := snake_n1_cntPos
    (initState 1 (((1 : ℕ) : ℚ) * 1)) rfl rfl rfl rfl rfl rfl
    (initState_data (by norm_num))
  refine ⟨?_, fuse_cntPos_n1, by norm_num⟩
  rw [he, Option.map_some', hent]
  congr 1
  show ((0 : ℚ) - 1).num = -1
  have e : ((0 : ℚ) - 1) = -(((1 : ℕ) : ℚ)) := by
    push_cast
    norm_num
  rw [e, Rat.neg_num, Rat.num_natCast]
  norm_num

/-- C6 amended: for counters that depend only on the running sample index
(not on the stage position), the trampoline snake scan and the loop-based
interfuse snake scan produce bit-identical image buffers. -/
theorem claim_C6_amended (f : ℕ → ℤ) (n : ℕ) (st : ℚ) (hn : 0 < n)
    (hst : st ≠ 0) :
    ∃ fin, driveSnake (idxCnt f) (n ^ 2 + 1) (initState st ((n : ℚ) * st))
        = some fin ∧
      fin.data = (Interfuse.snake_scan (idxCnt f) st ((n : ℚ) * st)
        (initState st ((n : ℚ) * st))).data := by
  obtain ⟨fin, he, hf⟩ := snake_complete hn hst
    (initState st ((n : ℚ) * st)) rfl rfl rfl rfl rfl rfl (initState_data hst)
  refine ⟨fin, he, ?_⟩
  obtain ⟨hdF, hEntF⟩ := fuse_scan_spec f hn hst (initState st ((n : ℚ) * st))
  have hd0 : fin.data = snakeDataK (idxCnt f) n st 0 0 (n ^ 2) := hf.hdata
  rw [hd0]
  apply mat_ext (dims_snakeDataK _ n st 0 0 _) hdF
  intro i j hi hj
  rw [getEntry_snakeDataK _ n st 0 0 hn (n ^ 2) (le_refl _) i j hi hj,
    if_pos (snakeIdx_lt hi hj), snakeVal_idxCnt, hEntF i j hi hj]

/-- C6 amended, instantiated: a 2 × 2 scan with the index counter
`k ↦ k + 7`. -/
theorem claim_C6_witness :
    ∃ fin, driveSnake (idxCnt (fun k => (k : ℤ) + 7)) (2 ^ 2 + 1)
        (initState 1 (((2 : ℕ) : ℚ) * 1)) = some fin ∧
      fin.data = (Interfuse.snake_scan (idxCnt (fun k => (k : ℤ) + 7)) 1
        (((2 : ℕ) : ℚ) * 1) (initState 1 (((2 : ℕ) : ℚ) * 1))).data :=
  claim_C6_amended (fun k => (k : ℤ) + 7) 2 1 (by omega) (by norm_num)

/-- C7 counterexample: with the position-dependent counter `cntPos` at n = 1,
step = 1, the first run stores -1 (sampling at x = -1) but, because the
terminal centering-out of run 1 leaves the stage at x = -2 instead of back at
the centre, the second run (after `initialize_scan` again) stores -3: the two
buffers are not bit-identical. -/
theorem claim_C7_counterexample :
    ((driveSnake cntPos (1 ^ 2 + 1) (initState 1 (((1 : ℕ) : ℚ) * 1))).bind
      (fun s1 => driveSnake cntPos (1 ^ 2 + 1)
        (init_scan 1 (((1 : ℕ) : ℚ) * 1) s1))).map
      (fun fin => getEntry fin.data 0 0) = some (-3) ∧
    (driveSnake cntPos (1 ^ 2 + 1) (initState 1 (((1 : ℕ) : ℚ) * 1))).map
      (fun fin => getEntry fin.data 0 0) = some (-1) ∧
    (-3 : ℤ) ≠ -1 := by
  obtain ⟨fin1, he1, hent1, hx1, hy1⟩ := snake_n1_cntPos
    (initState 1 (((1 : ℕ) : ℚ) * 1)) rfl rfl rfl rfl rfl rfl
    (initState_data (by norm_num))
  obtain ⟨fin2, he2, hent2, _, _⟩ := snake_n1_cntPos
    (init_scan 1 (((1 : ℕ) : ℚ) * 1) fin1) rfl rfl rfl rfl rfl rfl
    (init_scan_data (n := 1) (by norm_num) fin1)
  refine ⟨?_, ?_, by norm_num⟩
  · rw [he1, Option.some_bind, he2, Option.map_some', hent2]
    congr 1
    have hx : (init_scan 1 (((1 : ℕ) : ℚ) * 1) fin1).x = fin1.x := rfl
    rw [hx, hx1]
    show ((0 : ℚ) - 2 - 1).num = -3
    have e : ((0 : ℚ) - 2 - 1) = -(((3 : ℕ) : ℚ)) := by
      push_cast
      norm_num
    rw [e, Rat.neg_num, Rat.num_natCast]
    norm_num
  · rw [he1, Option.map_some', hent1]
    congr 1
    show ((0 : ℚ) - 1).num = -1
    have e : ((0 : ℚ) - 1) = -(((1 : ℕ) : ℚ)) := by
      push_cast
      norm_num
    rw [e, Rat.neg_num, Rat.num_natCast]
    norm_num

/-- C7 amended: for counters that depend only on the running sample index,
re-running `initialize_scan` followed by a full snake scan on the state left
by a first full run produces a buffer bit-identical to the first run's. -/
theorem claim_C7_amended (f : ℕ → ℤ) (n : ℕ) (st : ℚ) (hn : 0 < n)
    (hst : st ≠ 0) :
    ∃ s1 s2, driveSnake (idxCnt f) (n ^ 2 + 1) (initState st ((n : ℚ) * st))
        = some s1 ∧
      driveSnake (idxCnt f) (n ^ 2 + 1) (init_scan st ((n : ℚ) * st) s1)
        = some s2 ∧
      s2.data = s1.data := by
  obtain ⟨s1, he1, hf1⟩ := snake_complete hn hst
    (initState st ((n : ℚ) * st)) rfl rfl rfl rfl rfl rfl (initState_data hst)
  obtain ⟨s2, he2, hf2⟩ := snake_complete hn hst
    (init_scan st ((n : ℚ) * st) s1) rfl rfl rfl rfl rfl rfl
    (init_scan_data hst s1)
  refine ⟨s1, s2, he1, he2, ?_⟩
  have hd2 : s2.data = snakeDataK (idxCnt f) n st
      (init_scan st ((n : ℚ) * st) s1).x (init_scan st ((n : ℚ) * st) s1).y
      (n ^ 2) := hf2.hdata
  have hd1 : s1.data = snakeDataK (idxCnt f) n st 0 0 (n ^ 2) := hf1.hdata
  rw [hd1, hd2]
  apply mat_ext (dims_snakeDataK _ n st _ _ _) (dims_snakeDataK _ n st _ _ _)
  intro i j hi hj
  rw [getEntry_snakeDataK _ n st _ _ hn (n ^ 2) (le_refl _) i j hi hj,
    getEntry_snakeDataK _ n st _ _ hn (n ^ 2) (le_refl _) i j hi hj]
  split_ifs with h
  · rw [snakeVal_idxCnt, snakeVal_idxCnt]
  · rfl

/-- C7 amended, instantiated: two successive 2 × 2 runs with the index
counter `k ↦ k`. -/
theorem claim_C7_witness :
    ∃ s1 s2, driveSnake (idxCnt (fun k => (k : ℤ))) (2 ^ 2 + 1)
        (initState 1 (((2 : ℕ) : ℚ) * 1)) = some s1 ∧
      driveSnake (idxCnt (fun k => (k : ℤ))) (2 ^ 2 + 1)
        (init_scan 1 (((2 : ℕ) : ℚ) * 1) s1) = some s2 ∧
      s2.data = s1.data :=
  claim_C7_amended (fun k => (k : ℤ)) 2 1 (by omega) (by norm_num)

end Qudi
